import Mathlib

/-!
Verification development for the aaex-file-router route generator.

The definitions below are a shallow embedding of `src/core/RouteGenerator.ts`.
That file contains several historical variants of the `RouteGenerator` class;
the main embedding follows the variant that provides `normalizeSegment` with
the `404` catch-all, `getPrefixedName`, `addImport`, `createDirectoryRoute`,
`createFileRoute`, `fileDataToRoutes`, the server-route family, `collectPaths`,
`buildTypeUnion`, `findRootLayout` and the public `generateRoutesFile`.
The later variant whose `createFileRoute` produces a lazy `React.Suspense`
element is embedded in the `V3` namespace.

JavaScript strings are modelled as Lean `String` (a list of characters);
the few regular expressions of the source are translated to explicit
character scans, and `Array.prototype.sort` (a stable sort whose comparator
is consulted as `compare(inserted, existing) < 0`, as in TimSort's binary
insertion and merge steps) is modelled by the stable insertion sort `jsSort`.
Mutable instance state (`topLevelImports`, `importSet`) is threaded
explicitly as a `GenState` value.
-/

/-- Per-character lowercasing, the model of JavaScript `toLowerCase()` on the
ASCII names this generator handles. -/
def jsToLower (s : String) : String := ⟨s.data.map Char.toLower⟩

/-- Character class of the regex `\w`. -/
def isWordChar (c : Char) : Bool := c.isAlphanum || c == '_'

/-- Scanner for `name.replace(/\[([^\]]+)\]/g, repl)`. The first argument is
the scanner state: `none` means outside a bracket group, `some accRev` means
inside a group opened by `[`, with the group's content accumulated in
reversed order. A group matches only when nonempty and closed by `]`
(mirroring `[^\]]+`, which accepts any character except `]`, including `[`);
an empty `[]` or an unclosed `[` is emitted literally, exactly as the regex
leaves non-matching text untouched.  `repl` renders a matched group. -/
def replBrAux (repl : List Char → List Char) : Option (List Char) → List Char → List Char
  | none, [] => []
  | none, c :: rest =>
    if c == '[' then replBrAux repl (some []) rest
    else c :: replBrAux repl none rest
  | some accRev, [] => '[' :: accRev.reverse
  | some accRev, c :: rest =>
    if c == ']' then
      if accRev.isEmpty then '[' :: ']' :: replBrAux repl none rest
      else repl accRev.reverse ++ replBrAux repl none rest
    else replBrAux repl (some (c :: accRev)) rest

/-- Model of `name.replace(/\[([^\]]+)\]/g, ":$1")` on character lists. -/
def replBrC (cs : List Char) : List Char := replBrAux (fun inner => ':' :: inner) none cs

/-- Model of `name.replace(/\[([^\]]+)\]/g, "{string}")` on character lists. -/
def replBrT (cs : List Char) : List Char := replBrAux (fun _ => "\x7bstring\x7d".data) none cs

/-- Scanner for the PascalCase replacement
`str.replace(/(^\w|[-_]\w)/g, m => m.replace(/[-_]/, "").toUpperCase())`
away from the string start.  The state `some p` remembers a pending `-`/`_`
delimiter `p` that matches `[-_]\w` exactly when the next character is a word
character (in which case the delimiter is dropped and the word character is
uppercased); a pending delimiter followed by another delimiter is emitted
and the new delimiter becomes pending. -/
def pascalGo : Option Char → List Char → List Char
  | none, [] => []
  | some p, [] => [p]
  | none, c :: rest =>
    if c == '-' || c == '_' then pascalGo (some c) rest
    else c :: pascalGo none rest
  | some p, c :: rest =>
    if isWordChar c then c.toUpper :: pascalGo none rest
    else if c == '-' || c == '_' then p :: pascalGo (some c) rest
    else p :: c :: pascalGo none rest

/-- The PascalCase scan including the string start, where `^\w` can match:
a first word character is uppercased (a leading `_`, being a word character,
is removed by the inner `replace(/[-_]/, "")`). -/
def pascalStart : List Char → List Char
  | [] => []
  | c :: rest =>
    if isWordChar c then (if c == '_' then [] else [c.toUpper]) ++ pascalGo none rest
    else if c == '-' || c == '_' then pascalGo (some c) rest
    else c :: pascalGo none rest

/-- `toPascal` of the source: strip brackets, then capitalize the first word
character and every word character following a `-`/`_` delimiter. -/
def toPascal (s : String) : String :=
  ⟨pascalStart (s.data.filter (fun c => !(c == '[') && !(c == ']')))⟩

/-- `normalizeSegment` of the main variant: a name that (case-insensitively)
equals `404` becomes the catch-all `*`; otherwise `[x]` groups become `:x`
and the result is lowercased. -/
def normalizeSegment (name : String) : String :=
  if jsToLower name = "404" then "*" else jsToLower ⟨replBrC name.data⟩

/-- `normalizeTypeSegment`: `[x]` groups become the `{string}` placeholder;
no lowercasing happens here. -/
def normalizeTypeSegment (name : String) : String := ⟨replBrT name.data⟩

/-- Strip one trailing `.tsx`/`.jsx`/`.ts`/`.js` extension, matching on the
reversed character list (the four possible suffixes are mutually exclusive,
so the match order is irrelevant), the model of `replace(/\.[jt]sx?$/, "")`. -/
def stripExtRev : List Char → List Char
  | 'x' :: 's' :: 't' :: '.' :: rest => rest
  | 'x' :: 's' :: 'j' :: '.' :: rest => rest
  | 's' :: 't' :: '.' :: rest => rest
  | 's' :: 'j' :: '.' :: rest => rest
  | cs => cs

/-- String wrapper of `stripExtRev`. -/
def stripExt (s : String) : String := ⟨(stripExtRev s.data.reverse).reverse⟩

/-- Strip one leading `src/` or `src\` from a relative path,
the model of `replace(/^src[\/\\]/, "")`. -/
def stripLeadingSrc (s : String) : String :=
  match s.data with
  | 's' :: 'r' :: 'c' :: '/' :: rest => ⟨rest⟩
  | 's' :: 'r' :: 'c' :: '\\' :: rest => ⟨rest⟩
  | _ => s

/-- Replace the first occurrence of `404` by `NotFound`,
the model of `String.prototype.replace` with a string pattern. -/
def repl404C : List Char → List Char
  | '4' :: '0' :: '4' :: rest => "NotFound".data ++ rest
  | c :: rest => c :: repl404C rest
  | [] => []

/-- String wrapper of `repl404C`. -/
def replace404First (s : String) : String := ⟨repl404C s.data⟩

/-- The case-insensitive layout convention `/^layout\.(tsx|jsx|ts|js)$/i`. -/
def isLayoutFileName (s : String) : Bool :=
  let l := jsToLower s
  l == "layout.tsx" || l == "layout.jsx" || l == "layout.ts" || l == "layout.js"

/-- The case-insensitive loading convention `/^loading\.(tsx|jsx|ts|js)$/i`. -/
def isLoadingFileName (s : String) : Bool :=
  let l := jsToLower s
  l == "loading.tsx" || l == "loading.jsx" || l == "loading.ts" || l == "loading.js"

/-- Split a character list at every `/`, the model of `split("/")`. -/
def splitSlashCh : List Char → List (List Char)
  | [] => [[]]
  | c :: rest =>
    if c == '/' then [] :: splitSlashCh rest
    else
      match splitSlashCh rest with
      | s :: ss => (c :: s) :: ss
      | [] => [[c]]

/-- String wrapper of `splitSlashCh`, the model of `parentPath.split("/")`. -/
def splitSlash (s : String) : List String := (splitSlashCh s.data).map String.mk

/-- Collapse every run of slashes to a single slash, the model of
`replace(/\/+/g, "/")`; the flag records whether the previous character was
a slash (in which case further slashes are dropped). -/
def collapseGo : Bool → List Char → List Char
  | _, [] => []
  | prevSlash, c :: rest =>
    if c == '/' then
      if prevSlash then collapseGo true rest else '/' :: collapseGo true rest
    else c :: collapseGo false rest

/-- String wrapper of `collapseGo`. -/
def collapseSlashes (s : String) : String := ⟨collapseGo false s.data⟩

/-- First-occurrence deduplication, the model of iterating a JavaScript `Set`
built by insertion. -/
def setDedupGo (seen : List String) : List String → List String
  | [] => []
  | x :: xs => if x ∈ seen then setDedupGo seen xs else x :: setDedupGo (x :: seen) xs

/-- `[...new Set(paths)]`. -/
def setDedup (l : List String) : List String := setDedupGo [] l

/-- The default `Array.prototype.sort` comparator on strings. -/
def strCmp (a b : String) : Int := if a < b then -1 else if b < a then 1 else 0

/-- One insertion step of the stable-sort model: the accumulator holds the
sorted-so-far elements in reversed order, and the inserted element moves past
an existing element exactly when `cmp inserted existing < 0`. -/
def insRev (cmp : α → α → Int) (e : α) : List α → List α
  | [] => [e]
  | x :: xs => if cmp e x < 0 then x :: insRev cmp e xs else e :: x :: xs

/-- Stable sort model of `Array.prototype.sort(cmp)`: a stable binary-insertion
sort, matching the comparator discipline of the engine's TimSort (both its
binary-insertion phase and its merge phase consult `cmp(candidate, resident)
< 0` to move `candidate` leftwards past `resident`). -/
def jsSort (cmp : α → α → Int) (l : List α) : List α :=
  (l.foldl (fun acc e => insRev cmp e acc) []).reverse

/-- The scanner's `FileData` record (`children` is optional in the source;
an absent `children` behaves identically to `[]` in every use —
`find`, `filter` and the `children?.length` truthiness test). -/
inductive FileNode where
  | mk (name relative_path parent_path : String) (isDirectory : Bool)
       (children : List FileNode)

/-- Field accessor. -/
def FileNode.name : FileNode → String
  | .mk n _ _ _ _ => n

/-- Field accessor. -/
def FileNode.relative_path : FileNode → String
  | .mk _ rp _ _ _ => rp

/-- Field accessor. -/
def FileNode.parent_path : FileNode → String
  | .mk _ _ pp _ _ => pp

/-- Field accessor. -/
def FileNode.isDirectory : FileNode → Bool
  | .mk _ _ _ d _ => d

/-- Field accessor. -/
def FileNode.children : FileNode → List FileNode
  | .mk _ _ _ _ cs => cs

mutual

/-- Structural equality of file nodes, used to model the identity test
`f !== rootLayout` (the scanner never produces two distinct nodes with all
fields equal, so structural equality coincides with reference identity on
its output). -/
def fnBeq : FileNode → FileNode → Bool
  | .mk a b c d cs, .mk a' b' c' d' cs' =>
    a == a' && b == b' && c == c' && d == d' && fnBeqL cs cs'

/-- Structural equality on lists of file nodes. -/
def fnBeqL : List FileNode → List FileNode → Bool
  | [], [] => true
  | x :: xs, y :: ys => fnBeq x y && fnBeqL xs ys
  | _, _ => false

end

/-- The route record produced by the generator.  `element` holds the
element-construction expression as the string the generator builds;
`modulePath` is only set by the server-route family; absent optional fields
are `none` and are skipped by serialization, as `JSON.stringify` skips
`undefined` properties. -/
inductive RouteConfig where
  | mk (path : String) (element : Option String) (modulePath : Option String)
       (children : Option (List RouteConfig))

/-- Field accessor. -/
def RouteConfig.path : RouteConfig → String
  | .mk p _ _ _ => p

/-- Field accessor. -/
def RouteConfig.element : RouteConfig → Option String
  | .mk _ e _ _ => e

/-- Field accessor. -/
def RouteConfig.modulePath : RouteConfig → Option String
  | .mk _ _ m _ => m

/-- Field accessor. -/
def RouteConfig.children : RouteConfig → Option (List RouteConfig)
  | .mk _ _ _ cs => cs

/-- The mutable instance state of `RouteGenerator`: the accumulated import
lines and the set of already-imported `relative_path`s (the JavaScript
`Set<string>` is modelled as the list of its elements in insertion order). -/
structure GenState where
  topLevelImports : List String
  importSet : List String
deriving Repr, DecidableEq

/-- The empty instance state, as produced by
`this.topLevelImports = []; this.importSet.clear()`. -/
def emptyGenState : GenState := ⟨[], []⟩

/-- The sibling comparator passed to `routes.sort` (both route families use
the same comparator, including its duplicated dead third branch). -/
def cmpRoute (a b : RouteConfig) : Int :=
  if a.path = "*" then 1
  else if b.path = "*" then -1
  else if a.path = "" then -1
  else if a.path = "" then 1
  else 0

/-- `getPrefixedName` of the main variant.  `segments.toString()` in the
source is JavaScript's comma join.  Note the index branch appends the given
suffix, which every caller of the file/route path passes as `""`. -/
def getPrefixedName (file : FileNode) (parentPath sfx : String) : String :=
  let baseName := replace404First (stripExt file.name)
  if jsToLower baseName = "layout" || jsToLower baseName = "loading" then
    let segments := ((splitSlash parentPath).filter (fun s => !(s == ""))).map toPascal
    let segments := if String.intercalate "," segments = "src,pages" then ["root"] else segments
    (match segments.getLast? with
     | some s => if s = "" then toPascal baseName else s
     | none => toPascal baseName) ++ sfx
  else if jsToLower baseName = "index" && !(parentPath = "") then
    String.join (((splitSlash parentPath).filter (fun s => !(s == ""))).map toPascal) ++ sfx
  else toPascal baseName ++ sfx

/-- `addImport` of the main variant: push an import line and record the
`relative_path`, unless that `relative_path` was already imported. -/
def addImport (file : FileNode) (importName : String) (st : GenState) : GenState :=
  let importName := if importName = "404" then "NotFound" else importName
  if st.importSet.contains file.relative_path then st
  else
    let importPath := "./" ++ stripExt (stripLeadingSrc file.relative_path)
    ⟨st.topLevelImports ++ ["import " ++ importName ++ " from '" ++ importPath ++ "';"],
     st.importSet ++ [file.relative_path]⟩

/-- `findRootLayout`: the first top-level non-directory matching the layout
convention, if any. -/
def findRootLayout (files : List FileNode) : Option FileNode :=
  files.find? (fun f => !f.isDirectory && isLayoutFileName f.name)

/-- `createFileRoute` of the main variant: every file route receives a static
imported binding and a plain `React.createElement(name)` element.  The
`folderLoadingName` parameter is accepted and ignored, as in the source. -/
def createFileRoute (file : FileNode) (parentPath : String) (isChild : Bool)
    (folderLoadingName : Option String) (st : GenState) : RouteConfig × GenState :=
  let nameWithoutExt := stripExt file.name
  let isIndex := jsToLower nameWithoutExt = "index"
  let pathSegment := if isIndex then "" else normalizeSegment nameWithoutExt
  let pathSegment :=
    if !isChild && !(parentPath = "") then parentPath ++ "/" ++ pathSegment else pathSegment
  let importName := getPrefixedName file parentPath ""
  let st := addImport file importName st
  (RouteConfig.mk pathSegment (some ("React.createElement(" ++ importName ++ ")")) none none, st)

/-- Filtering a list never increases its `sizeOf`; used for the termination
of the directory/file conversion recursion. -/
theorem sizeOf_filter_le {α : Type} [SizeOf α] (p : α → Bool) (l : List α) :
    sizeOf (l.filter p) ≤ sizeOf l := by
  induction l with
  | nil => simp
  | cons a l ih =>
    simp only [List.filter, List.cons.sizeOf_spec]
    split
    · simp only [List.cons.sizeOf_spec]; omega
    · omega

/-- A node's children list is structurally smaller than the node. -/
theorem sizeOf_children_lt (f : FileNode) : sizeOf f.children < sizeOf f := by
  cases f
  simp only [FileNode.children, FileNode.mk.sizeOf_spec]
  omega

mutual

/-- `createDirectoryRoute` of the main variant: extract the layout and
loading children, register their imports, and convert the remaining
children with this directory's normalized segment as the new parent path. -/
def createDirectoryRoute (file : FileNode) (isChild : Bool) (st : GenState) :
    RouteConfig × GenState :=
  let pathSeg := normalizeSegment file.name
  let (elementOpt, st₁) :=
    match file.children.find? (fun f => isLayoutFileName f.name) with
    | some lf =>
      let layoutName := getPrefixedName lf file.relative_path "Layout"
      (some ("React.createElement(" ++ layoutName ++ ")"), addImport lf layoutName st)
    | none => (none, st)
  let (loadingName, st₂) :=
    match file.children.find? (fun f => isLoadingFileName f.name) with
    | some ld =>
      let ldName := getPrefixedName ld file.relative_path "Loading"
      (some ldName, addImport ld ldName st₁)
    | none => (none, st₁)
  match h : file.children.filter (fun f => !isLayoutFileName f.name && !isLoadingFileName f.name) with
  | [] => (RouteConfig.mk pathSeg elementOpt none none, st₂)
  | c :: csRest =>
    let (crs, st₃) := fileDataToRoutes (c :: csRest) pathSeg true loadingName st₂
    (RouteConfig.mk pathSeg elementOpt none (some crs), st₃)
termination_by 2 * sizeOf file
decreasing_by
have hfl := sizeOf_filter_le (fun (f : FileNode) => !isLayoutFileName f.name && !isLoadingFileName f.name) file.children
rw [h] at hfl
have hcl := sizeOf_children_lt file
simp only [List.cons.sizeOf_spec] at *
omega

/-- The `files.map(...)` step of `fileDataToRoutes`, threading the import
state left-to-right through the conversion of each sibling. -/
def routesPreSort (files : List FileNode) (parentPath : String) (isChild : Bool)
    (folderLoadingName : Option String) (st : GenState) : List RouteConfig × GenState :=
  match files with
  | [] => ([], st)
  | f :: rest =>
    let (r, st') :=
      if f.isDirectory then createDirectoryRoute f isChild st
      else createFileRoute f parentPath isChild folderLoadingName st
    let (rs, st'') := routesPreSort rest parentPath isChild folderLoadingName st'
    (r :: rs, st'')
termination_by 2 * sizeOf files
decreasing_by
all_goals simp only [List.cons.sizeOf_spec]; omega

/-- `fileDataToRoutes` of the main variant: map each sibling to a route,
then sort the siblings with `cmpRoute`. -/
def fileDataToRoutes (files : List FileNode) (parentPath : String) (isChild : Bool)
    (folderLoadingName : Option String) (st : GenState) : List RouteConfig × GenState :=
  let (pre, st') := routesPreSort files parentPath isChild folderLoadingName st
  (jsSort cmpRoute pre, st')
termination_by 2 * sizeOf files + 1
decreasing_by
omega

end

/-- Model of `path.resolve(process.cwd(), p)` for the simple shapes this
generator produces (a non-absolute relative path is appended to the given
working directory). -/
def pathResolve (cwd p : String) : String :=
  match p.data with
  | '/' :: _ => p
  | _ => cwd ++ "/" ++ p

/-- Model of `replace(/\\/g, "/")`. -/
def backslashToSlash (s : String) : String :=
  ⟨s.data.map (fun c => if c == '\\' then '/' else c)⟩

/-- `createServerFileRoute`: like `createFileRoute` but additionally records
the resolved absolute module path. -/
def createServerFileRoute (cwd : String) (file : FileNode) (parentPath : String)
    (isChild : Bool) (st : GenState) : RouteConfig × GenState :=
  let nameWithoutExt := stripExt file.name
  let isIndex := jsToLower nameWithoutExt = "index"
  let pathSegment := if isIndex then "" else normalizeSegment nameWithoutExt
  let pathSegment :=
    if !isChild && !(parentPath = "") then parentPath ++ "/" ++ pathSegment else pathSegment
  let importName := getPrefixedName file parentPath ""
  let st := addImport file importName st
  let modPath := backslashToSlash (pathResolve cwd file.relative_path)
  (RouteConfig.mk pathSegment (some ("React.createElement(" ++ importName ++ ")"))
    (some modPath) none, st)

mutual

/-- `createServerDirectoryRoute`: like `createDirectoryRoute` but with a
module path on the layout element and no loading-file handling (the child
filter still removes loading files). -/
def createServerDirectoryRoute (cwd : String) (file : FileNode) (isChild : Bool)
    (st : GenState) : RouteConfig × GenState :=
  let pathSeg := normalizeSegment file.name
  let (elementOpt, modOpt, st₁) :=
    match file.children.find? (fun f => isLayoutFileName f.name) with
    | some lf =>
      let layoutName := getPrefixedName lf file.relative_path "Layout"
      (some ("React.createElement(" ++ layoutName ++ ")"),
       some (backslashToSlash (pathResolve cwd lf.relative_path)),
       addImport lf layoutName st)
    | none => (none, none, st)
  match h : file.children.filter (fun f => !isLayoutFileName f.name && !isLoadingFileName f.name) with
  | [] => (RouteConfig.mk pathSeg elementOpt modOpt none, st₁)
  | c :: csRest =>
    let (crs, st₂) := fileDataToServerRoutes cwd (c :: csRest) pathSeg true st₁
    (RouteConfig.mk pathSeg elementOpt modOpt (some crs), st₂)
termination_by 2 * sizeOf file
decreasing_by
have hfl := sizeOf_filter_le (fun (f : FileNode) => !isLayoutFileName f.name && !isLoadingFileName f.name) file.children
rw [h] at hfl
have hcl := sizeOf_children_lt file
simp only [List.cons.sizeOf_spec] at *
omega

/-- The `files.map(...)` step of `fileDataToServerRoutes`. -/
def serverRoutesPreSort (cwd : String) (files : List FileNode) (parentPath : String)
    (isChild : Bool) (st : GenState) : List RouteConfig × GenState :=
  match files with
  | [] => ([], st)
  | f :: rest =>
    let (r, st') :=
      if f.isDirectory then createServerDirectoryRoute cwd f isChild st
      else createServerFileRoute cwd f parentPath isChild st
    let (rs, st'') := serverRoutesPreSort cwd rest parentPath isChild st'
    (r :: rs, st'')
termination_by 2 * sizeOf files
decreasing_by
all_goals simp only [List.cons.sizeOf_spec]; omega

/-- `fileDataToServerRoutes`: map each sibling to a server route, then sort
with the same comparator as the client family. -/
def fileDataToServerRoutes (cwd : String) (files : List FileNode) (parentPath : String)
    (isChild : Bool) (st : GenState) : List RouteConfig × GenState :=
  let (pre, st') := serverRoutesPreSort cwd files parentPath isChild st
  (jsSort cmpRoute pre, st')
termination_by 2 * sizeOf files + 1
decreasing_by
omega

end

/-- `collectPaths`: accumulate the type-level path strings.  Directories
contribute their extended prefix and recurse (the `children?.length`
truthiness test is kept); `layout`/`loading`/`404` files (case-sensitive,
after extension strip) are skipped; `index` files contribute `prefix || "/"`;
other files contribute `prefix + "/" + typeSegment`. -/
def collectPaths : List FileNode → String → List String
  | [], _ => []
  | f :: rest, pfx =>
    if f.isDirectory then
      let newPfx := pfx ++ "/" ++ normalizeTypeSegment f.name
      (newPfx :: (if f.children.isEmpty then [] else collectPaths f.children newPfx))
        ++ collectPaths rest pfx
    else
      let clean := stripExt f.name
      if clean == "layout" || clean == "loading" || clean == "404" then
        collectPaths rest pfx
      else if clean == "index" then
        (if pfx = "" then "/" else pfx) :: collectPaths rest pfx
      else
        (pfx ++ "/" ++ normalizeTypeSegment clean) :: collectPaths rest pfx
termination_by l _ => sizeOf l
decreasing_by
all_goals have := sizeOf_children_lt f; simp only [List.cons.sizeOf_spec]; omega

/-- The normalized path list of `buildTypeUnion`, before rendering:
deduplicate via a `Set`, collapse slash runs, replace `""` by `"/"`, and
sort with the default string comparator. -/
def buildTypeUnionList (paths : List String) : List String :=
  jsSort strCmp
    (((setDedup paths).map collapseSlashes).map (fun p => if p = "" then "/" else p))

/-- `buildTypeUnion`: render the normalized paths as union members. -/
def buildTypeUnion (paths : List String) : String :=
  String.intercalate "\n" ((buildTypeUnionList paths).map (fun p => "  | \"" ++ p ++ "\""))

/-- `generateTypesFile`. -/
def generateTypesFile (fileData : List FileNode) : String :=
  "// AUTO-GENERATED: DO NOT EDIT\nexport type FileRoutes =\n"
    ++ buildTypeUnion (collectPaths fileData "") ++ ";\n"

/-- JSON string escaping for the characters this generator can produce. -/
def escJSON : List Char → List Char
  | [] => []
  | c :: r =>
    (if c == '"' then ['\\', '"']
     else if c == '\\' then ['\\', '\\']
     else if c == '\n' then ['\\', 'n']
     else if c == '\t' then ['\\', 't']
     else if c == '\r' then ['\\', 'r']
     else [c]) ++ escJSON r

/-- A JSON string literal. -/
def jsonQuote (s : String) : String := "\"" ++ String.mk (escJSON s.data) ++ "\""

/-- `n` spaces of indentation. -/
def spacesN (n : Nat) : String := ⟨List.replicate n ' '⟩

mutual

/-- `JSON.stringify(route, null, 2)` at a given indentation depth: key order
is creation order (`path`, `element`, `modulePath`, `children`), and absent
(`undefined`) fields are skipped. -/
def renderRoute (depth : Nat) : RouteConfig → String
  | .mk p el mp cs =>
    let fs :=
      [some ("\"path\": " ++ jsonQuote p),
       el.map (fun e => "\"element\": " ++ jsonQuote e),
       mp.map (fun m => "\"modulePath\": " ++ jsonQuote m),
       (match cs with
        | some l => some ("\"children\": " ++ renderRouteArray (depth + 1) l)
        | none => none)].filterMap id
    "\x7b\n" ++ String.intercalate ",\n" (fs.map (fun s => spacesN (2 * (depth + 1)) ++ s))
      ++ "\n" ++ spacesN (2 * depth) ++ "\x7d"
termination_by r => sizeOf r
decreasing_by
simp only [RouteConfig.mk.sizeOf_spec, Option.some.sizeOf_spec]
omega

/-- `JSON.stringify` of a route array at a given depth. -/
def renderRouteArray (depth : Nat) : List RouteConfig → String
  | [] => "[]"
  | r :: rest =>
    "[\n" ++ renderRouteItems depth (r :: rest) ++ "\n" ++ spacesN (2 * depth) ++ "]"
termination_by rs => sizeOf rs + 1
decreasing_by
omega

/-- The comma-and-newline-separated items of a route array. -/
def renderRouteItems (depth : Nat) : List RouteConfig → String
  | [] => ""
  | [r] => spacesN (2 * (depth + 1)) ++ renderRoute (depth + 1) r
  | r :: rest => spacesN (2 * (depth + 1)) ++ renderRoute (depth + 1) r ++ ",\n"
      ++ renderRouteItems depth rest
termination_by rs => sizeOf rs
decreasing_by
all_goals simp only [List.cons.sizeOf_spec]; omega

end

/-- Drop the given pattern from the front of a character list, if present. -/
def dropPat : List Char → List Char → Option (List Char)
  | [], cs => some cs
  | _ :: _, [] => none
  | p :: ps, c :: cs => if p == c then dropPat ps cs else none

/-- Split a character list at the first occurrence of `)"`, returning the
part before it and the part after it. -/
def splitAtParQuote : List Char → Option (List Char × List Char)
  | ')' :: '"' :: rest => some ([], rest)
  | c :: rest => (splitAtParQuote rest).map (fun pr => (c :: pr.1, pr.2))
  | [] => none

/-- One fuelled pass of the replacement
`replace(/"React\.createElement\(([\s\S]*?)\)"/g, (_, inner) =>
React.createElement(inner))`: at each position, if the quoted marker starts
here, the lazily-matched inner text up to the first `)"` is re-emitted
without the surrounding quotes; otherwise one character is copied. -/
def fixCEAux : Nat → List Char → List Char
  | 0, cs => cs
  | fuel + 1, cs =>
    match dropPat "\"React.createElement(".data cs with
    | some rest =>
      match splitAtParQuote rest with
      | some (inner, after) =>
        "React.createElement(".data ++ inner ++ ')' :: fixCEAux fuel after
      | none =>
        match cs with
        | c :: r => c :: fixCEAux fuel r
        | [] => []
    | none =>
      match cs with
      | c :: r => c :: fixCEAux fuel r
      | [] => []

/-- String wrapper of `fixCEAux`, with enough fuel for its input. -/
def fixCreateElement (s : String) : String := ⟨fixCEAux s.data.length s.data⟩

/-- The route list built by the public `generateRoutesFile` before
serialization: reset the accumulators, find and remove the top-level root
layout, convert the remaining entries with the server-route family (as the
source does), and, when a root layout exists, wrap everything in a single
empty-path route rendering the fixed `RootLayout` identifier. -/
def generateRoutesFileRoutes (cwd : String) (fileData : List FileNode) :
    List RouteConfig × GenState :=
  let st := emptyGenState
  let rootLayout := findRootLayout fileData
  let withOutLayout :=
    match rootLayout with
    | some l => fileData.filter (fun f => !(fnBeq f l))
    | none => fileData
  let (routes, st₁) := fileDataToServerRoutes cwd withOutLayout "" false st
  match rootLayout with
  | some l =>
    let st₂ := addImport l "RootLayout" st₁
    ([RouteConfig.mk "" (some "React.createElement(RootLayout)") none (some routes)], st₂)
  | none => (routes, st₁)

/-- Render the generated `routes.ts` text from the accumulated import lines
and the route list. -/
def renderClientRoutesFile (imports : List String) (routes : List RouteConfig) : String :=
  "//* AUTO GENERATED: DO NOT EDIT\nimport React from 'react';\n"
    ++ String.intercalate "\n" imports
    ++ "\nimport type \x7b RouteObject \x7d from 'react-router-dom';\n\nconst routes: RouteObject[] = "
    ++ fixCreateElement (renderRouteArray 0 routes)
    ++ ";\n\nexport default routes;\n"

/-- The public `generateRoutesFile`.  The incoming instance state `st0` is
the state left by any previous call; the method overwrites it with fresh
accumulators before doing anything else, which is why `st0` is never read. -/
def generateRoutesFile (cwd : String) (st0 : GenState) (fileData : List FileNode) :
    String × GenState :=
  let (routes, st) := generateRoutesFileRoutes cwd fileData
  (renderClientRoutesFile st.topLevelImports routes, st)

namespace V3

/-- `normalizeSegment` of the later (lazy) variant: no `404` special case. -/
def normalizeSegment (name : String) : String := jsToLower ⟨replBrC name.data⟩

/-- `addImport` of the later variant: no `404` renaming, and the import path
keeps the file extension. -/
def addImport (file : FileNode) (importName : String) (st : GenState) : GenState :=
  if st.importSet.contains file.relative_path then st
  else
    let importPath := "./" ++ stripLeadingSrc file.relative_path
    ⟨st.topLevelImports ++ ["import " ++ importName ++ " from '" ++ importPath ++ "';"],
     st.importSet ++ [file.relative_path]⟩

/-- `getImportName` of the later variant: files named `index`
(case-insensitively) with a nonempty parent path take the joined parent
segments, pascal-cased, with the `Index` suffix. -/
def getImportName (file : FileNode) (parentPath : String) : String :=
  let nameWithoutExt := stripExt file.name
  if jsToLower nameWithoutExt = "index" && !(parentPath = "") then
    toPascal (String.join ((splitSlash parentPath).filter (fun s => !(s == "")))) ++ "Index"
  else toPascal nameWithoutExt

/-- `createFileRoute` of the later variant: every file route, top-level or
nested, is wrapped in `React.Suspense` around a `React.lazy` dynamic import;
the loading fallback is the folder's loading element when present. -/
def createFileRoute (file : FileNode) (parentPath : String) (isChild : Bool)
    (folderLoadingName : Option String) (st : GenState) : RouteConfig × GenState :=
  let nameWithoutExt := stripExt file.name
  let isIndex := jsToLower nameWithoutExt = "index"
  let pathSegment := if isIndex then "" else normalizeSegment nameWithoutExt
  let pathSegment :=
    if !isChild && !(parentPath = "") then parentPath ++ "/" ++ pathSegment else pathSegment
  let importName := getImportName file parentPath
  let st := addImport file importName st
  let fallback :=
    match folderLoadingName with
    | some n => "React.createElement(" ++ n ++ ")"
    | none => "React.createElement('div',null,'loading...')"
  let element :=
    "React.createElement(React.Suspense, \x7b fallback: " ++ fallback
      ++ " \x7d, React.createElement(React.lazy(() => import('./"
      ++ stripLeadingSrc file.relative_path ++ "'))))"
  (RouteConfig.mk pathSegment (some element) none none, st)

end V3

/-- Invariant tying the two import accumulators together: no
`relative_path` is recorded twice, and import lines and recorded paths are
in bijection (each `addImport` pushes to both or to neither). -/
def ImportInv (st : GenState) : Prop :=
  st.importSet.Nodup ∧ st.topLevelImports.length = st.importSet.length

/-- Following the spec's words: the capitalized-word form of a single
lowercase word, used to compare derived identifiers against the spec's
`admin` to `Admin` example. -/
def specCapFirst (s : String) : String :=
  match s.data with
  | [] => ""
  | c :: cs => ⟨c.toUpper :: cs⟩

/-- Following the spec's words: a type-path segment corresponds to a
route-path segment when they are equal, or when the type side is the
`{string}` placeholder and the route side is a `:param` dynamic segment
(one beginning with a colon). -/
def specMatchSeg (t r : String) : Bool :=
  t == r || (t == "\x7bstring\x7d" && r.data.head? == some ':')

/-- Segmentwise correspondence of two segment lists. -/
def specMatchSegs : List String → List String → Bool
  | [], [] => true
  | t :: ts, r :: rs => specMatchSeg t r && specMatchSegs ts rs
  | _, _ => false

/-- Following the spec's words: a type path corresponds to a route path when
their slash-separated segments correspond pairwise. -/
def specMatchPath (t r : String) : Bool :=
  specMatchSegs (splitSlash t) (splitSlash r)

/-- The full path of every route node of a route tree: each node contributes
`acc ++ "/" ++ path`, and its children are collected under that full path. -/
def allRoutePaths (acc : String) : List RouteConfig → List String
  | [] => []
  | .mk p el mp none :: rest => (acc ++ "/" ++ p) :: allRoutePaths acc rest
  | .mk p el mp (some cs) :: rest =>
    (acc ++ "/" ++ p)
      :: (allRoutePaths (acc ++ "/" ++ p) cs ++ allRoutePaths acc rest)
termination_by rs => sizeOf rs
decreasing_by
all_goals simp only [List.cons.sizeOf_spec, RouteConfig.mk.sizeOf_spec, Option.some.sizeOf_spec]; omega

/-- The contribution of a single route node to `allRoutePaths`: its own full
path, followed by the full paths of its child tree. -/
def routeNodePaths (acc : String) (r : RouteConfig) : List String :=
  match r with
  | .mk p _ _ none => [acc ++ "/" ++ p]
  | .mk p _ _ (some cs) => (acc ++ "/" ++ p) :: allRoutePaths (acc ++ "/" ++ p) cs

/-- A filesystem-realistic entry name: nonempty and slash-free. -/
def goodName (s : String) : Bool := !(s == "") && !s.data.contains '/'

/-- No two consecutive characters are both slashes. -/
def noConsecSlash : List Char → Bool
  | [] => true
  | [_] => true
  | a :: b :: r => !(a == '/' && b == '/') && noConsecSlash (b :: r)

/-- A collected type path as produced from a realistic tree: nonempty, with
no run of consecutive slashes. -/
def cleanPath (s : String) : Bool := !(s == "") && noConsecSlash s.data

/-- The invariant of the prefix argument threaded through `collectPaths`:
no slash runs and no trailing slash. -/
def cleanPfx (s : String) : Bool :=
  noConsecSlash s.data && !(s.data.getLast? == some '/')

mutual

/-- Every name in the tree is filesystem-realistic. -/
def goodTree : FileNode → Bool
  | .mk nm _ _ _ cs => goodName nm && goodTreeL cs

/-- `goodTree` on a list of nodes. -/
def goodTreeL : List FileNode → Bool
  | [] => true
  | f :: rest => goodTree f && goodTreeL rest

end

/-- All characters are fixed by lowercasing. -/
def allLowerStr (s : String) : Bool := s.data.all (fun c => Char.toLower c == c)

/-- A route-relevant segment name is well-bracketed: either bracket-free, or
exactly one whole-segment group `[mid]` (an opening bracket first, a closing
bracket last) with `mid` nonempty and bracket-free. -/
def segOkC (cs : List Char) : Bool :=
  (!cs.contains '[' && !cs.contains ']')
    || (cs.head? == some '[' && cs.tail.reverse.head? == some ']'
        && !(cs.tail.reverse.tail == [])
        && !(cs.tail.reverse.tail).contains '[' && !(cs.tail.reverse.tail).contains ']')

mutual

/-- Well-formedness of a tree for the type-path/route-path round trip: every
route-relevant name (the raw name for directories, the extension-stripped
name for files) is nonempty, slash-free, lowercase, not the reserved `404`,
and well-bracketed; and no directory is named like a layout or loading file. -/
def good9 : FileNode → Bool
  | .mk nm _ _ isDir cs =>
    let seg := if isDir then nm else stripExt nm
    allLowerStr nm && !(seg == "") && !seg.data.contains '/' && allLowerStr seg
      && !(seg == "404") && segOkC seg.data
      && (!isDir || (!isLayoutFileName nm && !isLoadingFileName nm))
      && good9L cs

/-- `good9` on a list of nodes. -/
def good9L : List FileNode → Bool
  | [] => true
  | f :: rest => good9 f && good9L rest

end

/-- Sample node: a top-level plain page. -/
def aboutNode : FileNode := .mk "about.tsx" "src/pages/about.tsx" "src/pages/" false []

/-- Sample node: a top-level page with an uppercase letter. -/
def upperAboutNode : FileNode := .mk "About.tsx" "src/pages/About.tsx" "src/pages/" false []

/-- Sample node: a nested plain page. -/
def postNode : FileNode := .mk "post.tsx" "src/pages/blog/post.tsx" "src/pages/blog/" false []

/-- Sample node: a top-level index page. -/
def indexNode : FileNode := .mk "index.tsx" "src/pages/index.tsx" "src/pages/" false []

/-- Sample node: a nested index page under `admin/`. -/
def idxAdminNode : FileNode := .mk "index.tsx" "src/pages/admin/index.tsx" "src/pages/admin/" false []

/-- Sample node: a top-level `admin.tsx` page colliding with a directory. -/
def adminFileNode : FileNode := .mk "admin.tsx" "src/pages/admin.tsx" "src/pages/" false []

/-- Sample node: the `admin/` directory. -/
def adminDirNode : FileNode := .mk "admin" "src/pages/admin" "src/pages/" true [idxAdminNode]

/-- Sample node: a top-level 404 page. -/
def notFoundNode : FileNode := .mk "404.tsx" "src/pages/404.tsx" "src/pages/" false []

/-- Sample node: a top-level root layout. -/
def rootLayoutNode : FileNode := .mk "layout.tsx" "src/pages/layout.tsx" "src/pages/" false []

/-- Sample node: a top-level layout with an uppercase letter; it matches the
case-insensitive layout convention used by the route side. -/
def upperLayoutNode : FileNode := .mk "Layout.tsx" "src/pages/Layout.tsx" "src/pages/" false []

/-- Inserting into the reversed accumulator is a permutation of consing. -/
theorem insRev_perm (cmp : α → α → Int) (e : α) (l : List α) :
    List.Perm (insRev cmp e l) (e :: l) := by
  induction l with
  | nil => simp [insRev]
  | cons x xs ih =>
    simp only [insRev]
    split
    · exact List.Perm.trans (List.Perm.cons x ih) (List.Perm.swap e x xs)
    · exact List.Perm.refl _

/-- The insertion fold is a permutation of appending. -/
theorem foldl_insRev_perm (cmp : α → α → Int) (l acc : List α) :
    List.Perm (l.foldl (fun a x => insRev cmp x a) acc) (acc ++ l) := by
  induction l generalizing acc with
  | nil => simp
  | cons e rest ih =>
    have h1 : (e :: rest).foldl (fun a x => insRev cmp x a) acc
        = rest.foldl (fun a x => insRev cmp x a) (insRev cmp e acc) := by simp
    rw [h1]
    have h2 := ih (insRev cmp e acc)
    have h3 := (insRev_perm cmp e acc).append_right rest
    have h4 : List.Perm (e :: acc ++ rest) (acc ++ e :: rest) := List.perm_middle.symm
    exact ((h2.trans h3).trans h4)

/-- The sort model permutes its input. -/
theorem jsSort_perm (cmp : α → α → Int) (l : List α) : List.Perm (jsSort cmp l) l := by
  have h1 : List.Perm (jsSort cmp l) (l.foldl (fun a x => insRev cmp x a) []) :=
    List.reverse_perm _
  have h2 := foldl_insRev_perm cmp l []
  simpa using h1.trans h2

/-- The sort model preserves length. -/
theorem jsSort_length (cmp : α → α → Int) (l : List α) :
    (jsSort cmp l).length = l.length :=
  (jsSort_perm cmp l).length_eq

/-- The sort model preserves membership. -/
theorem jsSort_mem (cmp : α → α → Int) (l : List α) (x : α) :
    x ∈ jsSort cmp l ↔ x ∈ l :=
  (jsSort_perm cmp l).mem_iff

/-- The route list of `fileDataToRoutes` is the sorted pre-list. -/
theorem fileDataToRoutes_fst (files : List FileNode) (parentPath : String) (isChild : Bool)
    (fln : Option String) (st : GenState) :
    (fileDataToRoutes files parentPath isChild fln st).1
      = jsSort cmpRoute (routesPreSort files parentPath isChild fln st).1 := by
  rw [fileDataToRoutes]

/-- The state of `fileDataToRoutes` is the state of the pre-list pass. -/
theorem fileDataToRoutes_snd (files : List FileNode) (parentPath : String) (isChild : Bool)
    (fln : Option String) (st : GenState) :
    (fileDataToRoutes files parentPath isChild fln st).2
      = (routesPreSort files parentPath isChild fln st).2 := by
  rw [fileDataToRoutes]

/-- One route is produced per sibling node, before sorting. -/
theorem routesPreSort_length (files : List FileNode) (parentPath : String) (isChild : Bool)
    (fln : Option String) (st : GenState) :
    ((routesPreSort files parentPath isChild fln st).1).length = files.length := by
  induction files generalizing st with
  | nil => simp [routesPreSort]
  | cons f rest ih =>
    rw [routesPreSort]
    rcases hr : (if f.isDirectory then createDirectoryRoute f isChild st
                 else createFileRoute f parentPath isChild fln st) with ⟨r, st'⟩
    rcases hs : routesPreSort rest parentPath isChild fln st' with ⟨rs, st''⟩
    have hlen := ih st'
    rw [hs] at hlen
    simp at hlen
    simp only [hs, List.length_cons]
    omega

/-- Claim C5: calling `generateRoutesFile` twice in succession on the same
generator instance with the same unchanged tree returns byte-identical
output strings (and identical final states), because the transient import
accumulators are fully reset at the start of each call; more generally the
output is independent of whatever instance state a previous call left. -/
theorem c5_generateRoutesFile_idempotent (cwd : String) (st : GenState)
    (fileData : List FileNode) :
    (generateRoutesFile cwd st fileData).1
        = (generateRoutesFile cwd (generateRoutesFile cwd st fileData).2 fileData).1
      ∧ (generateRoutesFile cwd st fileData).2
        = (generateRoutesFile cwd (generateRoutesFile cwd st fileData).2 fileData).2
      ∧ ∀ st' : GenState,
          (generateRoutesFile cwd st fileData).1 = (generateRoutesFile cwd st' fileData).1 :=
  ⟨rfl, rfl, fun _ => rfl⟩

/-- Claim C1 (code evaluation at the failing inputs): the claim says
top-level file leaves get a static import binding and nested file leaves get
a deferred lazy reference.  The code does neither split: the main variant's
`createFileRoute` binds a nested file (`blog/post.tsx`, converted as a child)
to the plain static element `React.createElement(Post)` and registers a
top-level static import for it, and the later variant's `createFileRoute`
binds a top-level file (`about.tsx`) to a `React.Suspense`/`React.lazy`
deferred reference. -/
theorem c1_static_lazy_code_eval :
    (createFileRoute postNode "blog" true none emptyGenState).1
        = RouteConfig.mk "post" (some "React.createElement(Post)") none none
      ∧ (createFileRoute postNode "blog" true none emptyGenState).2.topLevelImports
        = ["import Post from './pages/blog/post';"]
      ∧ (V3.createFileRoute aboutNode "" false none emptyGenState).1
        = RouteConfig.mk "about"
            (some ("React.createElement(React.Suspense, \x7b fallback: React.createElement('div',null,'loading...') \x7d, React.createElement(React.lazy(() => import('./pages/about.tsx'))))"))
            none none :=
  ⟨rfl, rfl, rfl⟩

/-- Step equation: `routesPreSort` on the empty list. -/
theorem routesPreSort_nil (p : String) (c : Bool) (n : Option String) (st : GenState) :
    routesPreSort [] p c n st = ([], st) := by
  rw [routesPreSort.eq_def]

/-- Step equation: `routesPreSort` on a cons cell, with the pair threading
written through projections so that rewriting introduces no binders. -/
theorem routesPreSort_cons (f : FileNode) (rest : List FileNode) (p : String) (c : Bool)
    (n : Option String) (st : GenState) :
    routesPreSort (f :: rest) p c n st =
      ((if f.isDirectory then createDirectoryRoute f c st
        else createFileRoute f p c n st).1
        :: (routesPreSort rest p c n
            (if f.isDirectory then createDirectoryRoute f c st
             else createFileRoute f p c n st).2).1,
       (routesPreSort rest p c n
          (if f.isDirectory then createDirectoryRoute f c st
           else createFileRoute f p c n st).2).2) := by
  rw [routesPreSort.eq_def]

/-- `fileDataToRoutes` as a projection pair. -/
theorem fileDataToRoutes_eq2 (files : List FileNode) (p : String) (c : Bool)
    (n : Option String) (st : GenState) :
    fileDataToRoutes files p c n st
      = (jsSort cmpRoute (routesPreSort files p c n st).1, (routesPreSort files p c n st).2) := by
  rw [fileDataToRoutes]

/-- `createDirectoryRoute` with the pair threading written through
projections and option matches, so concrete instances evaluate by rewriting. -/
theorem createDirectoryRoute_eq2 (file : FileNode) (c : Bool) (st : GenState) :
    createDirectoryRoute file c st =
      (RouteConfig.mk (normalizeSegment file.name)
        (match List.find? (fun f => isLayoutFileName f.name) file.children with
         | some lf =>
           some ("React.createElement(" ++ getPrefixedName lf file.relative_path "Layout" ++ ")")
         | none => none)
        none
        (if (List.filter (fun f => !isLayoutFileName f.name && !isLoadingFileName f.name)
              file.children).isEmpty then none
         else some ((fileDataToRoutes
            (List.filter (fun f => !isLayoutFileName f.name && !isLoadingFileName f.name)
              file.children)
            (normalizeSegment file.name) true
            (match List.find? (fun f => isLoadingFileName f.name) file.children with
             | some ld => some (getPrefixedName ld file.relative_path "Loading")
             | none => none)
            (match List.find? (fun f => isLoadingFileName f.name) file.children with
             | some ld =>
               addImport ld (getPrefixedName ld file.relative_path "Loading")
                 (match List.find? (fun f => isLayoutFileName f.name) file.children with
                  | some lf => addImport lf (getPrefixedName lf file.relative_path "Layout") st
                  | none => st)
             | none =>
               (match List.find? (fun f => isLayoutFileName f.name) file.children with
                | some lf => addImport lf (getPrefixedName lf file.relative_path "Layout") st
                | none => st))).1)),
       (if (List.filter (fun f => !isLayoutFileName f.name && !isLoadingFileName f.name)
              file.children).isEmpty then
          (match List.find? (fun f => isLoadingFileName f.name) file.children with
           | some ld =>
             addImport ld (getPrefixedName ld file.relative_path "Loading")
               (match List.find? (fun f => isLayoutFileName f.name) file.children with
                | some lf => addImport lf (getPrefixedName lf file.relative_path "Layout") st
                | none => st)
           | none =>
             (match List.find? (fun f => isLayoutFileName f.name) file.children with
              | some lf => addImport lf (getPrefixedName lf file.relative_path "Layout") st
              | none => st))
        else (fileDataToRoutes
            (List.filter (fun f => !isLayoutFileName f.name && !isLoadingFileName f.name)
              file.children)
            (normalizeSegment file.name) true
            (match List.find? (fun f => isLoadingFileName f.name) file.children with
             | some ld => some (getPrefixedName ld file.relative_path "Loading")
             | none => none)
            (match List.find? (fun f => isLoadingFileName f.name) file.children with
             | some ld =>
               addImport ld (getPrefixedName ld file.relative_path "Loading")
                 (match List.find? (fun f => isLayoutFileName f.name) file.children with
                  | some lf => addImport lf (getPrefixedName lf file.relative_path "Layout") st
                  | none => st)
             | none =>
               (match List.find? (fun f => isLayoutFileName f.name) file.children with
                | some lf => addImport lf (getPrefixedName lf file.relative_path "Layout") st
                | none => st))).2)) := by
  rw [createDirectoryRoute.eq_def]
  rcases hL : List.find? (fun f => isLayoutFileName f.name) file.children with _ | lf <;>
  rcases hD : List.find? (fun f => isLoadingFileName f.name) file.children with _ | ld <;>
  simp only [hL, hD] <;> split <;> simp_all

/-- Claim C2 (counterexample): a file `admin.tsx` and a sibling directory
`admin/` both produce a route, so the sibling route list has two entries
named `admin`, not exactly one. -/
theorem c2_counterexample :
    ((fileDataToRoutes [adminFileNode, adminDirNode] "" false none emptyGenState).1.map
        RouteConfig.path) = ["admin", "admin"]
      ∧ ((fileDataToRoutes [adminFileNode, adminDirNode] "" false none
          emptyGenState).1.countP (fun r => r.path == "admin")) = 2 := by
  constructor <;>
  · simp +decide [fileDataToRoutes_eq2, routesPreSort_cons, routesPreSort_nil,
      createDirectoryRoute_eq2, createFileRoute, adminFileNode, adminDirNode, idxAdminNode,
      FileNode.isDirectory, FileNode.name, FileNode.relative_path, FileNode.children,
      emptyGenState, List.filter, List.find?]

/-- Claim C2 as amended: no shadowing exclusion exists; the generated sibling
route list contains exactly one route per input node (so a file whose base
name collides with a sibling directory still produces its own route, and the
collision yields two sibling routes with the same path). -/
theorem c2_amended_one_route_per_node (files : List FileNode) (parentPath : String)
    (isChild : Bool) (fln : Option String) (st : GenState) :
    ((fileDataToRoutes files parentPath isChild fln st).1).length = files.length := by
  rw [fileDataToRoutes_fst, jsSort_length, routesPreSort_length]

/-- Lowercasing can only change a character into a lowercase letter, so a
character whose lowercase form is not a lowercase letter was unchanged. -/
theorem toLower_eq_nonletter (c d : Char) (hd : ¬(97 ≤ d.toNat ∧ d.toNat ≤ 122))
    (h : Char.toLower c = d) : c = d := by
  unfold Char.toLower at h
  simp only [] at h
  by_cases hr : c.toNat ≥ 65 ∧ c.toNat ≤ 90
  · rw [if_pos hr] at h
    exfalso
    have h2 := congrArg Char.toNat h
    have hv : Char.isValidCharNat (c.toNat + 32) := by
      unfold Char.isValidCharNat
      omega
    rw [Char.ofNat] at h2
    rw [dif_pos hv] at h2
    have h3 : (Char.ofNatAux (c.toNat + 32) hv).toNat = c.toNat + 32 := rfl
    rw [h3] at h2
    omega
  · rw [if_neg hr] at h
    exact h

/-- Only the string `404` lowercases to `404`. -/
theorem jsToLower_eq_404 (nm : String) (h : jsToLower nm = "404") : nm = "404" := by
  have hd := congrArg String.data h
  have hmap : nm.data.map Char.toLower = ['4', '0', '4'] := hd
  have hnum : ¬(97 ≤ ('4' : Char).toNat ∧ ('4' : Char).toNat ≤ 122) := by decide
  have hnum0 : ¬(97 ≤ ('0' : Char).toNat ∧ ('0' : Char).toNat ≤ 122) := by decide
  rcases hm : nm.data with _ | ⟨a, _ | ⟨b, _ | ⟨c, _ | ⟨d, rest⟩⟩⟩⟩ <;> rw [hm] at hmap <;>
    simp at hmap
  obtain ⟨ha, hb, hc⟩ := hmap
  have ha' := toLower_eq_nonletter a '4' hnum ha
  have hb' := toLower_eq_nonletter b '0' hnum0 hb
  have hc' := toLower_eq_nonletter c '4' hnum hc
  cases nm
  simp at hm
  simp [hm, ha', hb', hc']

/-- The bracket scanner leaves a bracket-free list unchanged. -/
theorem replBrAux_no_bracket (repl : List Char → List Char) (cs : List Char)
    (h : ∀ c ∈ cs, c ≠ '[') : replBrAux repl none cs = cs := by
  induction cs with
  | nil => rfl
  | cons c rest ih =>
    have hc : c ≠ '[' := h c (List.mem_cons_self c rest)
    simp only [replBrAux]
    rw [if_neg (by simpa using hc)]
    rw [ih (fun d hd => h d (List.mem_cons_of_mem c hd))]

/-- Inside a group, the scanner accumulates all characters up to the first
closing bracket. -/
theorem replBrAux_scan (repl : List Char → List Char) (cs : List Char)
    (acc rest : List Char) (h : ∀ c ∈ cs, c ≠ ']') :
    replBrAux repl (some acc) (cs ++ ']' :: rest)
      = replBrAux repl (some (cs.reverse ++ acc)) (']' :: rest) := by
  induction cs generalizing acc with
  | nil => simp
  | cons c cs' ih =>
    have hc : c ≠ ']' := h c (List.mem_cons_self c cs')
    rw [List.cons_append]
    simp only [replBrAux]
    rw [if_neg (by simpa using hc)]
    rw [ih (c :: acc) (fun d hd => h d (List.mem_cons_of_mem c hd))]
    simp [replBrAux]

/-- A whole-segment bracket group rewrites to the replacement of its body. -/
theorem replBrAux_group (repl : List Char → List Char) (inner : List Char)
    (hne : inner ≠ []) (h : ∀ c ∈ inner, c ≠ ']') :
    replBrAux repl none ('[' :: inner ++ [']']) = repl inner := by
  rw [List.cons_append]
  simp only [replBrAux]
  rw [if_pos (by decide)]
  have hscan := replBrAux_scan repl inner [] [] h
  simp only [List.append_nil] at hscan
  rw [hscan]
  simp only [replBrAux]
  rw [if_pos (by decide)]
  rw [if_neg (by simpa using hne)]
  simp [replBrAux]

/-- String concatenation concatenates the character lists. -/
theorem string_data_append (a b : String) : (a ++ b).data = a.data ++ b.data := rfl

/-- A nonempty string has a nonempty character list. -/
theorem string_ne_data (s : String) (h : s ≠ "") : s.data ≠ [] := by
  intro hd
  apply h
  cases s
  exact congrArg String.mk hd

/-- Claim C6: segment normalization rewrites a bracketed part `[inner]` to
the dynamic parameter `:inner` (with the lowercasing the function applies to
its whole result), maps a name that is literally `404` to the catch-all
wildcard `*`, and otherwise lowercases the (bracket-free) name unchanged. -/
theorem c6_normalizeSegment (inner nm : String) (h1 : inner ≠ "")
    (h2 : ']' ∉ inner.data) (h3 : '[' ∉ nm.data) (h4 : nm ≠ "404") :
    normalizeSegment ("[" ++ inner ++ "]") = ":" ++ jsToLower inner
      ∧ normalizeSegment "404" = "*"
      ∧ normalizeSegment nm = jsToLower nm := by
  have hdata : ("[" ++ inner ++ "]").data = '[' :: (inner.data ++ [']']) := by
    rw [string_data_append, string_data_append]
    rfl
  refine ⟨?_, rfl, ?_⟩
  · rw [normalizeSegment]
    rw [if_neg ?notFourOhFour]
    case notFourOhFour =>
      intro hcontra
      have hd := congrArg String.data hcontra
      rw [show (jsToLower ("[" ++ inner ++ "]")).data
            = ("[" ++ inner ++ "]").data.map Char.toLower from rfl, hdata] at hd
      simp at hd
    · have hgr := replBrAux_group (fun inner => ':' :: inner) inner.data
        (string_ne_data inner h1) (fun c hc => by intro hcc; exact h2 (hcc ▸ hc))
      have hcast : replBrC ("[" ++ inner ++ "]").data = ':' :: inner.data := by
        rw [replBrC, hdata]
        exact hgr
      rw [hcast]
      show String.mk (List.map Char.toLower (':' :: inner.data)) = _
      rw [List.map_cons]
      rfl
  · rw [normalizeSegment]
    rw [if_neg (fun hcontra => h4 (jsToLower_eq_404 nm hcontra))]
    rw [replBrC, replBrAux_no_bracket _ nm.data (fun c hc => by intro hcc; exact h3 (hcc ▸ hc))]

/-- Witness for claim C6 at `[userId]`, `404` and `About`. -/
theorem c6_witness :
    normalizeSegment ("[" ++ "userId" ++ "]") = ":" ++ jsToLower "userId"
      ∧ normalizeSegment "404" = "*"
      ∧ normalizeSegment "About" = jsToLower "About" :=
  c6_normalizeSegment "userId" "About" (by decide) (by decide) (by decide) (by decide)

/-- Claim C7 (counterexample): for `admin/index.tsx` the import identifier
derived by the main variant (`getPrefixedName` with the empty suffix its
file-route callers pass) is `Admin`, not `AdminIndex`, and the generated
element references `Admin`. -/
theorem c7_counterexample :
    getPrefixedName idxAdminNode "admin" "" = "Admin"
      ∧ (createFileRoute idxAdminNode "admin" true none emptyGenState).1.element
        = some "React.createElement(Admin)"
      ∧ "Admin" ≠ "AdminIndex" :=
  ⟨rfl, rfl, by decide⟩

/-- Splitting a slash-free character list yields the single segment. -/
theorem splitSlashCh_no_slash (cs : List Char) (h : '/' ∉ cs) :
    splitSlashCh cs = [cs] := by
  induction cs with
  | nil => rfl
  | cons c rest ih =>
    have hc : ¬(c == '/') = true := by
      simp
      intro he
      exact h (he ▸ List.mem_cons_self c rest)
    rw [splitSlashCh]
    rw [if_neg hc]
    rw [ih (fun hm => h (List.mem_cons_of_mem c hm))]

/-- The PascalCase scanner keeps a delimiter-free list unchanged. -/
theorem pascalGo_id (cs : List Char) (h : ∀ c ∈ cs, c ≠ '-' ∧ c ≠ '_') :
    pascalGo none cs = cs := by
  induction cs with
  | nil => rfl
  | cons c rest ih =>
    have hc := h c (List.mem_cons_self c rest)
    rw [pascalGo]
    rw [if_neg (by simp [hc.1, hc.2])]
    rw [ih (fun d hd => h d (List.mem_cons_of_mem c hd))]

/-- A lowercase letter is a word character. -/
theorem isWordChar_of_isLower (c : Char) (h : c.isLower = true) :
    isWordChar c = true := by
  simp [isWordChar, Char.isAlphanum, Char.isAlpha, h]

/-- A lowercase letter is none of the special scanner characters. -/
theorem isLower_not_special (c : Char) (h : c.isLower = true) :
    c ≠ '-' ∧ c ≠ '_' ∧ c ≠ '[' ∧ c ≠ ']' ∧ c ≠ '/' := by
  refine ⟨?_, ?_, ?_, ?_, ?_⟩ <;> intro he <;> rw [he] at h <;> exact absurd h (by decide)

/-- Claim C7 as amended: the `getImportName` variants derive the identifier
of an `index` file with a nonempty (single-segment, lowercase) parent path
as the capitalized parent segment followed by `Index`; the `getPrefixedName`
variant used by the main generator drops the `Index` suffix instead (see the
counterexample). -/
theorem c7_amended_getImportName (file : FileNode) (p : String)
    (h1 : jsToLower (stripExt file.name) = "index") (h2 : p ≠ "")
    (h3 : ∀ c ∈ p.data, c.isLower = true) :
    V3.getImportName file p = specCapFirst p ++ "Index" := by
  rw [V3.getImportName]
  simp only [h1]
  rw [if_pos (by simp [h2])]
  have hsplit : splitSlash p = [p] := by
    rw [splitSlash, splitSlashCh_no_slash p.data
      (fun hm => ((isLower_not_special '/' (h3 '/' hm)).2.2.2.2) rfl)]
    simp
  rw [hsplit]
  have hfilter : [p].filter (fun s => !(s == "")) = [p] := by
    simp [h2]
  rw [hfilter]
  have hjoin : String.join [p] = p := rfl
  rw [hjoin]
  rcases hp : p.data with _ | ⟨c, cs⟩
  · exfalso
    apply h2
    cases p
    exact congrArg String.mk hp
  · have hc : c.isLower = true := h3 c (by rw [hp]; exact List.mem_cons_self c cs)
    have hfilterBr : p.data.filter (fun c => !(c == '[') && !(c == ']')) = c :: cs := by
      rw [hp]
      apply List.filter_eq_self.mpr
      intro a ha
      have hla := h3 a (by rw [hp]; exact ha)
      have := isLower_not_special a hla
      simp [this.2.2.1, this.2.2.2.1]
    rw [toPascal, hfilterBr]
    rw [pascalStart]
    rw [if_pos (isWordChar_of_isLower c hc)]
    have hcne : ¬(c == '_') = true := by
      simp
      exact (isLower_not_special c hc).2.1
    rw [if_neg hcne]
    rw [pascalGo_id cs (fun d hd => by
      have hld := h3 d (by rw [hp]; exact List.mem_cons_of_mem c hd)
      have := isLower_not_special d hld
      exact ⟨this.1, this.2.1⟩)]
    rw [specCapFirst, hp]
    rfl

/-- Witness for claim C7 as amended, at `admin/index.tsx`. -/
theorem c7_witness :
    V3.getImportName idxAdminNode "admin" = specCapFirst "admin" ++ "Index"
      ∧ specCapFirst "admin" ++ "Index" = "AdminIndex" :=
  ⟨c7_amended_getImportName idxAdminNode "admin" (by decide) (by decide) (by decide),
   by decide⟩

/-- Claim C10: when the top level contains a layout file, `generateRoutesFile`
removes the first such file from per-entry conversion and returns a single
root route with empty path, whose element references the fixed identifier
`RootLayout` and whose children are the routes generated from all the other
entries; with no top-level layout the route list is returned unwrapped. -/
theorem c10_root_layout_wrapping (cwd : String) (files : List FileNode) :
    (∀ l, findRootLayout files = some l →
      (generateRoutesFileRoutes cwd files).1
          = [RouteConfig.mk "" (some "React.createElement(RootLayout)") none
              (some ((fileDataToServerRoutes cwd (files.filter (fun f => !(fnBeq f l))) ""
                 false emptyGenState).1))]
        ∧ l.isDirectory = false ∧ isLayoutFileName l.name = true)
      ∧ (findRootLayout files = none →
        (generateRoutesFileRoutes cwd files).1
          = (fileDataToServerRoutes cwd files "" false emptyGenState).1) := by
  constructor
  · intro l hfind
    have hfind' : List.find? (fun f => !f.isDirectory && isLayoutFileName f.name) files
        = some l := by
      rw [findRootLayout] at hfind
      exact hfind
    have hprop := List.find?_some hfind'
    simp at hprop
    refine ⟨?_, hprop.1, hprop.2⟩
    rw [generateRoutesFileRoutes]
    simp only [hfind]
  · intro hfind
    rw [generateRoutesFileRoutes]
    simp only [hfind]

/-- Witness for claim C10: a tree with a root `layout.tsx` and an
`about.tsx` produces the single wrapping route. -/
theorem c10_witness :
    (generateRoutesFileRoutes "/proj" [rootLayoutNode, aboutNode]).1
        = [RouteConfig.mk "" (some "React.createElement(RootLayout)") none
            (some ((fileDataToServerRoutes "/proj" ([rootLayoutNode, aboutNode].filter
               (fun f => !(fnBeq f rootLayoutNode))) "" false emptyGenState).1))]
      ∧ rootLayoutNode.isDirectory = false ∧ isLayoutFileName rootLayoutNode.name = true :=
  (c10_root_layout_wrapping "/proj" [rootLayoutNode, aboutNode]).1 rootLayoutNode rfl

/-- Step equation: `serverRoutesPreSort` on the empty list. -/
theorem serverRoutesPreSort_nil (cwd p : String) (c : Bool) (st : GenState) :
    serverRoutesPreSort cwd [] p c st = ([], st) := by
  rw [serverRoutesPreSort.eq_def]

/-- Step equation: `serverRoutesPreSort` on a cons cell, with the pair
threading written through projections. -/
theorem serverRoutesPreSort_cons (cwd : String) (f : FileNode) (rest : List FileNode)
    (p : String) (c : Bool) (st : GenState) :
    serverRoutesPreSort cwd (f :: rest) p c st =
      ((if f.isDirectory then createServerDirectoryRoute cwd f c st
        else createServerFileRoute cwd f p c st).1
        :: (serverRoutesPreSort cwd rest p c
            (if f.isDirectory then createServerDirectoryRoute cwd f c st
             else createServerFileRoute cwd f p c st).2).1,
       (serverRoutesPreSort cwd rest p c
          (if f.isDirectory then createServerDirectoryRoute cwd f c st
           else createServerFileRoute cwd f p c st).2).2) := by
  rw [serverRoutesPreSort.eq_def]

/-- `fileDataToServerRoutes` as a projection pair. -/
theorem fileDataToServerRoutes_eq2 (cwd : String) (files : List FileNode) (p : String)
    (c : Bool) (st : GenState) :
    fileDataToServerRoutes cwd files p c st
      = (jsSort cmpRoute (serverRoutesPreSort cwd files p c st).1,
         (serverRoutesPreSort cwd files p c st).2) := by
  rw [fileDataToServerRoutes]

/-- `addImport` preserves the import invariant. -/
theorem addImport_inv (f : FileNode) (nm : String) (st : GenState)
    (h : ImportInv st) : ImportInv (addImport f nm st) := by
  rw [addImport]
  split
  · exact h
  · rename_i hc
    constructor
    · apply List.Nodup.append h.1 (by simp)
      simp [List.disjoint_singleton]
      simpa using hc
    · simp [h.2]

/-- The server-route conversion preserves the import invariant (proved for
all three mutually recursive functions by strong induction on size). -/
theorem server_conversion_inv : ∀ n : Nat,
    (∀ (cwd : String) (file : FileNode) (c : Bool) (st : GenState), sizeOf file ≤ n →
       ImportInv st → ImportInv (createServerDirectoryRoute cwd file c st).2)
      ∧ (∀ (cwd : String) (files : List FileNode) (p : String) (c : Bool) (st : GenState),
         sizeOf files ≤ n → ImportInv st → ImportInv (serverRoutesPreSort cwd files p c st).2)
      ∧ (∀ (cwd : String) (files : List FileNode) (p : String) (c : Bool) (st : GenState),
         sizeOf files ≤ n → ImportInv st → ImportInv (fileDataToServerRoutes cwd files p c st).2) := by
  intro n
  induction n using Nat.strong_induction_on with
  | _ n ih =>
    have hdir : ∀ (cwd : String) (file : FileNode) (c : Bool) (st : GenState),
        sizeOf file ≤ n → ImportInv st → ImportInv (createServerDirectoryRoute cwd file c st).2 := by
      intro cwd file c st hsz hinv
      rw [createServerDirectoryRoute.eq_def]
      rcases hL : List.find? (fun f => isLayoutFileName f.name) file.children with _ | lf <;>
        simp only [hL] <;> split
      · exact hinv
      · rename_i c₀ cs₀ heq
        have hflt := sizeOf_filter_le
          (fun f => !isLayoutFileName f.name && !isLoadingFileName f.name) file.children
        rw [heq] at hflt
        have hch := sizeOf_children_lt file
        have hlt : sizeOf (c₀ :: cs₀) < n := by omega
        exact ((ih _ hlt).2.2 cwd (c₀ :: cs₀) (normalizeSegment file.name) true _ le_rfl hinv)
      · exact addImport_inv _ _ _ hinv
      · rename_i c₀ cs₀ heq
        have hflt := sizeOf_filter_le
          (fun f => !isLayoutFileName f.name && !isLoadingFileName f.name) file.children
        rw [heq] at hflt
        have hch := sizeOf_children_lt file
        have hlt : sizeOf (c₀ :: cs₀) < n := by omega
        exact ((ih _ hlt).2.2 cwd (c₀ :: cs₀) (normalizeSegment file.name) true _ le_rfl
          (addImport_inv _ _ _ hinv))
    have hpre : ∀ (cwd : String) (files : List FileNode) (p : String) (c : Bool) (st : GenState),
        sizeOf files ≤ n → ImportInv st → ImportInv (serverRoutesPreSort cwd files p c st).2 := by
      intro cwd files p c st hsz hinv
      cases files with
      | nil => rw [serverRoutesPreSort_nil]; exact hinv
      | cons f rest =>
        rw [serverRoutesPreSort_cons]
        simp only [List.cons.sizeOf_spec] at hsz
        have hrest : sizeOf rest < n := by
          have : 0 < sizeOf f := by cases f; simp
          omega
        have hst' : ImportInv (if f.isDirectory then createServerDirectoryRoute cwd f c st
            else createServerFileRoute cwd f p c st).2 := by
          split
          · exact hdir cwd f c st (by omega) hinv
          · rw [createServerFileRoute]
            exact addImport_inv _ _ _ hinv
        exact (ih _ hrest).2.1 cwd rest p c _ le_rfl hst'
    refine ⟨hdir, hpre, ?_⟩
    intro cwd files p c st hsz hinv
    rw [fileDataToServerRoutes_eq2]
    exact hpre cwd files p c st hsz hinv

/-- Claim C4: within one `generateRoutesFile` pass, each file
`relative_path` is imported at most once: in the final instance state the
recorded import keys are pairwise distinct and correspond one-to-one with
the emitted import lines (both accumulators are pushed together by
`addImport`). -/
theorem c4_import_uniqueness (cwd : String) (st0 : GenState) (fileData : List FileNode) :
    ((generateRoutesFile cwd st0 fileData).2).importSet.Nodup
      ∧ ((generateRoutesFile cwd st0 fileData).2).topLevelImports.length
        = ((generateRoutesFile cwd st0 fileData).2).importSet.length := by
  have hbase : ImportInv emptyGenState := by constructor <;> simp [emptyGenState]
  have hmain : ImportInv (generateRoutesFileRoutes cwd fileData).2 := by
    rw [generateRoutesFileRoutes]
    cases hfind : findRootLayout fileData with
    | none =>
      simp only [hfind]
      exact (server_conversion_inv (sizeOf fileData)).2.2 cwd fileData "" false
        emptyGenState le_rfl hbase
    | some l =>
      simp only [hfind]
      rcases hr : fileDataToServerRoutes cwd
          (fileData.filter (fun f => !(fnBeq f l))) "" false emptyGenState with ⟨routes, st₁⟩
      have hinv := (server_conversion_inv (sizeOf (fileData.filter (fun f => !(fnBeq f l))))).2.2
        cwd (fileData.filter (fun f => !(fnBeq f l))) "" false emptyGenState le_rfl hbase
      rw [hr] at hinv
      exact addImport_inv _ _ _ hinv
  have hsnd : (generateRoutesFile cwd st0 fileData).2 = (generateRoutesFileRoutes cwd fileData).2 := by
    rw [generateRoutesFile]
  rw [hsnd]
  exact hmain

/-- The sibling comparator always orders a `*` route after anything. -/
theorem cmpRoute_star (e x : RouteConfig) (he : e.path = "*") : cmpRoute e x = 1 := by
  simp [cmpRoute, he]

/-- The sibling comparator always orders an empty-path route before anything. -/
theorem cmpRoute_emptyP (e x : RouteConfig) (he : e.path = "") : cmpRoute e x = -1 := by
  simp only [cmpRoute, he]
  norm_num
  intro h
  exact absurd h (by decide)

/-- On other routes the comparator only defers to a `*` on the right. -/
theorem cmpRoute_mid (e x : RouteConfig) (h1 : e.path ≠ "*") (h2 : e.path ≠ "") :
    cmpRoute e x = if x.path = "*" then -1 else 0 := by
  simp [cmpRoute, h1, h2]

/-- Inserting a `*` route leaves it at the front of the reversed accumulator
(the end of the sorted order). -/
theorem insRev_star (e : RouteConfig) (he : e.path = "*") (l : List RouteConfig) :
    insRev cmpRoute e l = e :: l := by
  cases l with
  | nil => rfl
  | cons x xs =>
    rw [insRev, if_neg]
    rw [cmpRoute_star e x he]
    decide

/-- Inserting an empty-path route sinks it to the back of the reversed
accumulator (the front of the sorted order). -/
theorem insRev_emptyP (e : RouteConfig) (he : e.path = "") (l : List RouteConfig) :
    insRev cmpRoute e l = l ++ [e] := by
  induction l with
  | nil => rfl
  | cons x xs ih =>
    rw [insRev, if_pos]
    · rw [ih]; rfl
    · rw [cmpRoute_emptyP e x he]; decide

/-- Inserting an ordinary route moves it past the `*` block only. -/
theorem insRev_mid (e : RouteConfig) (h1 : e.path ≠ "*") (h2 : e.path ≠ "")
    (S B : List RouteConfig) (hS : ∀ x ∈ S, x.path = "*") (hB : ∀ x ∈ B, x.path ≠ "*") :
    insRev cmpRoute e (S ++ B) = S ++ e :: B := by
  induction S with
  | nil =>
    simp only [List.nil_append]
    cases B with
    | nil => rfl
    | cons b bs =>
      rw [insRev, if_neg]
      rw [cmpRoute_mid e b h1 h2, if_neg (hB b (List.mem_cons_self b bs))]
      decide
  | cons s S' ih =>
    rw [List.cons_append, insRev, if_pos]
    · rw [ih (fun x hx => hS x (List.mem_cons_of_mem s hx))]
      rfl
    · rw [cmpRoute_mid e s h1 h2, if_pos (hS s (List.mem_cons_self s S'))]
      decide

/-- Characterization of the insertion fold with the sibling comparator: the
reversed accumulator consists of the `*` routes (reversed), then the
ordinary routes (reversed), then the empty-path routes (in encounter
order). -/
theorem foldl_insRev_cmpRoute (l : List RouteConfig) :
    l.foldl (fun acc e => insRev cmpRoute e acc) []
      = (l.filter (fun r => r.path == "*")).reverse
        ++ ((l.filter (fun r => !(r.path == "*") && !(r.path == ""))).reverse
            ++ l.filter (fun r => r.path == "")) := by
  induction l using List.reverseRecOn with
  | nil => rfl
  | append_singleton l e ih =>
    rw [List.foldl_append]
    simp only [List.foldl_cons, List.foldl_nil]
    rw [ih]
    by_cases hstar : e.path = "*"
    · rw [insRev_star e hstar]
      simp [hstar, List.filter_append]
    · by_cases hemp : e.path = ""
      · rw [insRev_emptyP e hemp]
        simp [hstar, hemp, List.filter_append]
      · rw [insRev_mid e hstar hemp _ _ ?hS ?hB]
        case hS =>
          intro x hx
          rw [List.mem_reverse, List.mem_filter] at hx
          simpa using hx.2
        case hB =>
          intro x hx
          rw [List.mem_append] at hx
          rcases hx with hx | hx
          · rw [List.mem_reverse, List.mem_filter] at hx
            have := hx.2
            simp at this
            exact this.1
          · rw [List.mem_filter] at hx
            have := hx.2
            simp at this
            rw [this]
            decide
        simp [hstar, hemp, List.filter_append]

/-- Characterization of the sibling sort: empty-path routes first (their
internal order reversed), ordinary routes in encounter order, `*` routes
last. -/
theorem jsSort_cmpRoute_char (l : List RouteConfig) :
    jsSort cmpRoute l
      = (l.filter (fun r => r.path == "")).reverse
        ++ (l.filter (fun r => !(r.path == "*") && !(r.path == "")))
        ++ l.filter (fun r => r.path == "*") := by
  rw [jsSort, foldl_insRev_cmpRoute]
  simp [List.reverse_append, List.append_assoc]

/-- Claim C3: in every sibling list produced by `fileDataToRoutes` (each
sibling list of the generated tree, including every nested `children` list,
is such an output), a `*` route, if present, is the last entry; an
empty-path index route, if present, is the first entry; and the remaining
routes keep their encounter order (the order of the pre-sort `files.map`
pass). -/
theorem c3_sibling_order (files : List FileNode) (parentPath : String) (isChild : Bool)
    (fln : Option String) (st : GenState) :
    ((∃ r ∈ (fileDataToRoutes files parentPath isChild fln st).1, r.path = "*") →
      ∃ r, ((fileDataToRoutes files parentPath isChild fln st).1).getLast? = some r
        ∧ r.path = "*")
      ∧ ((∃ r ∈ (fileDataToRoutes files parentPath isChild fln st).1, r.path = "") →
        ∃ r, ((fileDataToRoutes files parentPath isChild fln st).1).head? = some r
          ∧ r.path = "")
      ∧ ((fileDataToRoutes files parentPath isChild fln st).1).filter
            (fun r => !(r.path == "*") && !(r.path == ""))
        = ((routesPreSort files parentPath isChild fln st).1).filter
            (fun r => !(r.path == "*") && !(r.path == "")) := by
  have hout : (fileDataToRoutes files parentPath isChild fln st).1
      = ((routesPreSort files parentPath isChild fln st).1.filter
          (fun r => r.path == "")).reverse
        ++ ((routesPreSort files parentPath isChild fln st).1.filter
            (fun r => !(r.path == "*") && !(r.path == "")))
        ++ (routesPreSort files parentPath isChild fln st).1.filter
            (fun r => r.path == "*") := by
    rw [fileDataToRoutes_fst, jsSort_cmpRoute_char]
  refine ⟨?_, ?_, ?_⟩
  · rintro ⟨r, hr, hstar⟩
    rw [hout] at hr
    have hrS : r ∈ (routesPreSort files parentPath isChild fln st).1.filter
        (fun r => r.path == "*") := by
      rw [List.append_assoc, List.mem_append, List.mem_append] at hr
      rcases hr with hr | hr | hr
      · rw [List.mem_reverse, List.mem_filter] at hr
        exfalso
        have := hr.2
        simp at this
        rw [this] at hstar
        exact absurd hstar (by decide)
      · rw [List.mem_filter] at hr
        exfalso
        have := hr.2
        simp at this
        exact this.1 hstar
      · exact hr
    have hSne : (routesPreSort files parentPath isChild fln st).1.filter
        (fun r => r.path == "*") ≠ [] := List.ne_nil_of_mem hrS
    rw [hout]
    refine ⟨((routesPreSort files parentPath isChild fln st).1.filter
        (fun r => r.path == "*")).getLast hSne, ?_, ?_⟩
    · rw [List.getLast?_append_of_ne_nil _ hSne]
      exact List.getLast?_eq_getLast _ hSne
    · have hmem := List.getLast_mem hSne
      rw [List.mem_filter] at hmem
      simpa using hmem.2
  · rintro ⟨r, hr, hemp⟩
    rw [hout] at hr
    have hrE : r ∈ ((routesPreSort files parentPath isChild fln st).1.filter
        (fun r => r.path == "")).reverse := by
      rw [List.append_assoc, List.mem_append, List.mem_append] at hr
      rcases hr with hr | hr | hr
      · exact hr
      · rw [List.mem_filter] at hr
        exfalso
        have := hr.2
        simp at this
        exact this.2 hemp
      · rw [List.mem_filter] at hr
        exfalso
        have := hr.2
        simp at this
        rw [this] at hemp
        exact absurd hemp (by decide)
    have hEne : ((routesPreSort files parentPath isChild fln st).1.filter
        (fun r => r.path == "")).reverse ≠ [] := List.ne_nil_of_mem hrE
    rw [hout]
    refine ⟨(((routesPreSort files parentPath isChild fln st).1.filter
        (fun r => r.path == "")).reverse).head hEne, ?_, ?_⟩
    · rw [List.append_assoc, List.head?_append_of_ne_nil _ hEne]
      exact List.head?_eq_head _
    · have hmem := List.head_mem hEne
      rw [List.mem_reverse, List.mem_filter] at hmem
      simpa using hmem.2
  · rw [hout]
    rw [List.filter_append, List.filter_append]
    have h1 : (((routesPreSort files parentPath isChild fln st).1.filter
        (fun r => r.path == "")).reverse).filter
          (fun r => !(r.path == "*") && !(r.path == "")) = [] := by
      rw [List.filter_eq_nil_iff]
      intro a ha
      rw [List.mem_reverse, List.mem_filter] at ha
      have := ha.2
      simp at this
      simp [this]
    have h2 : ((routesPreSort files parentPath isChild fln st).1.filter
        (fun r => r.path == "*")).filter
          (fun r => !(r.path == "*") && !(r.path == "")) = [] := by
      rw [List.filter_eq_nil_iff]
      intro a ha
      rw [List.mem_filter] at ha
      have := ha.2
      simp at this
      simp [this]
    have h3 : (((routesPreSort files parentPath isChild fln st).1.filter
        (fun r => !(r.path == "*") && !(r.path == ""))).filter
          (fun r => !(r.path == "*") && !(r.path == "")))
        = (routesPreSort files parentPath isChild fln st).1.filter
            (fun r => !(r.path == "*") && !(r.path == "")) := by
      rw [List.filter_eq_self]
      intro a ha
      rw [List.mem_filter] at ha
      exact ha.2
    rw [h1, h2, h3]
    simp

/-- Witness for claim C3: `about.tsx`, `404.tsx` and `index.tsx` sort as
index first, `about` in the middle, `*` last. -/
theorem c3_witness :
    (∃ r, ((fileDataToRoutes [aboutNode, notFoundNode, indexNode] "" false none
        emptyGenState).1).getLast? = some r ∧ r.path = "*")
      ∧ (∃ r, ((fileDataToRoutes [aboutNode, notFoundNode, indexNode] "" false none
          emptyGenState).1).head? = some r ∧ r.path = "") := by
  have hev : (fileDataToRoutes [aboutNode, notFoundNode, indexNode] "" false none
      emptyGenState).1
      = [RouteConfig.mk "" (some "React.createElement(Index)") none none,
         RouteConfig.mk "about" (some "React.createElement(About)") none none,
         RouteConfig.mk "*" (some "React.createElement(NotFound)") none none] := by
    simp +decide [fileDataToRoutes_eq2, routesPreSort_cons, routesPreSort_nil,
      createFileRoute, aboutNode, notFoundNode, indexNode, FileNode.isDirectory,
      FileNode.name, FileNode.relative_path, emptyGenState, jsSort, insRev, cmpRoute,
      RouteConfig.path]
  have h := c3_sibling_order [aboutNode, notFoundNode, indexNode] "" false none emptyGenState
  refine ⟨h.1 ?_, h.2.1 ?_⟩
  · refine ⟨RouteConfig.mk "*" (some "React.createElement(NotFound)") none none, ?_, rfl⟩
    rw [hev]
    simp
  · refine ⟨RouteConfig.mk "" (some "React.createElement(Index)") none none, ?_, rfl⟩
    rw [hev]
    simp

/-- Step equation: `collectPaths` on the empty list. -/
theorem collectPaths_nil (pfx : String) : collectPaths [] pfx = [] := by
  rw [collectPaths.eq_def]

/-- Step equation: `collectPaths` on a cons cell. -/
theorem collectPaths_cons (f : FileNode) (rest : List FileNode) (pfx : String) :
    collectPaths (f :: rest) pfx =
      if f.isDirectory then
        ((pfx ++ "/" ++ normalizeTypeSegment f.name)
            :: (if f.children.isEmpty then []
                else collectPaths f.children (pfx ++ "/" ++ normalizeTypeSegment f.name)))
          ++ collectPaths rest pfx
      else
        if stripExt f.name == "layout" || stripExt f.name == "loading"
            || stripExt f.name == "404" then
          collectPaths rest pfx
        else if stripExt f.name == "index" then
          (if pfx = "" then "/" else pfx) :: collectPaths rest pfx
        else
          (pfx ++ "/" ++ normalizeTypeSegment (stripExt f.name)) :: collectPaths rest pfx := by
  rw [collectPaths.eq_def]

/-- A string all of whose characters are fixed by lowercasing is fixed by
`toLowerCase`. -/
theorem allLower_id (s : String) (h : allLowerStr s = true) : jsToLower s = s := by
  rw [jsToLower]
  have hmap : s.data.map Char.toLower = s.data := by
    have := List.map_congr_left (l := s.data) (f := Char.toLower) (g := id) ?_
    · simpa using this
    · intro c hc
      rw [allLowerStr, List.all_eq_true] at h
      simpa using h c hc
  rw [hmap]

/-- A list without slashes has no consecutive slashes. -/
theorem no_slash_noConsec (l : List Char) (h : '/' ∉ l) : noConsecSlash l = true := by
  induction l with
  | nil => rfl
  | cons a r ih =>
    cases r with
    | nil => rfl
    | cons b r' =>
      rw [noConsecSlash]
      have ha : a ≠ '/' := fun he => h (he ▸ List.mem_cons_self a _)
      have hr : '/' ∉ b :: r' := fun hm => h (List.mem_cons_of_mem a hm)
      simp [ha, ih hr]

/-- Appending a single slash and a slash-free tail to a list with no slash
runs and no trailing slash yields a list with no slash runs. -/
theorem noConsec_append (xs ys : List Char) (h1 : noConsecSlash xs = true)
    (h2 : xs.getLast? ≠ some '/') (h3 : '/' ∉ ys) :
    noConsecSlash (xs ++ '/' :: ys) = true := by
  induction xs with
  | nil =>
    cases ys with
    | nil => rfl
    | cons c r =>
      rw [List.nil_append, noConsecSlash]
      have hc : c ≠ '/' := fun he => h3 (he ▸ List.mem_cons_self c _)
      simp [hc, no_slash_noConsec _ h3]
  | cons a rest ih =>
    cases rest with
    | nil =>
      have ha : a ≠ '/' := by simpa using h2
      have hy : noConsecSlash ('/' :: ys) = true := by
        cases ys with
        | nil => rfl
        | cons c r =>
          rw [noConsecSlash]
          have hc : c ≠ '/' := fun he => h3 (he ▸ List.mem_cons_self c _)
          simp [hc, no_slash_noConsec _ h3]
      rw [List.cons_append, List.nil_append, noConsecSlash]
      simp [ha, hy]
    | cons b r =>
      rw [noConsecSlash] at h1
      simp only [Bool.and_eq_true] at h1
      have h2' : (b :: r).getLast? ≠ some '/' := by
        rwa [List.getLast?_cons_cons] at h2
      have := ih h1.2 h2'
      rw [List.cons_append, List.cons_append, noConsecSlash]
      simp only [Bool.and_eq_true]
      refine ⟨h1.1, ?_⟩
      rw [← List.cons_append]
      simpa using this

/-- The character list of `a ++ "/" ++ b`. -/
theorem data_slash (a b : String) : (a ++ "/" ++ b).data = a.data ++ '/' :: b.data := by
  rw [string_data_append, string_data_append]
  simp

/-- The bracket scanner never returns an empty list from a started group,
and returns a nonempty list from a nonempty input, provided the replacement
renderer never returns an empty list. -/
theorem replBrAux_ne_nil (repl : List Char → List Char)
    (hrepl : ∀ inner, repl inner ≠ []) :
    (∀ cs acc, replBrAux repl (some acc) cs ≠ [])
      ∧ (∀ cs, cs ≠ [] → replBrAux repl none cs ≠ []) := by
  have hsome : ∀ cs acc, replBrAux repl (some acc) cs ≠ [] := by
    intro cs
    induction cs with
    | nil => intro acc; rw [replBrAux]; simp
    | cons c rest ih =>
      intro acc
      rw [replBrAux]
      by_cases hc : c == ']'
      · rw [if_pos hc]
        by_cases he : acc.isEmpty
        · rw [if_pos he]; simp
        · rw [if_neg he]
          simp [hrepl acc.reverse]
      · rw [if_neg hc]
        exact ih (c :: acc)
  refine ⟨hsome, ?_⟩
  intro cs hne
  cases cs with
  | nil => exact absurd rfl hne
  | cons c rest =>
    rw [replBrAux]
    by_cases hc : c == '['
    · rw [if_pos hc]; exact hsome rest []
    · rw [if_neg hc]; simp

/-- The bracket scanner introduces no slash, provided the replacement
renderer introduces none. -/
theorem replBrAux_no_slash (repl : List Char → List Char)
    (hrepl : ∀ inner, '/' ∉ inner → '/' ∉ repl inner) :
    ∀ cs, '/' ∉ cs →
      ('/' ∉ replBrAux repl none cs
        ∧ ∀ acc, '/' ∉ acc → '/' ∉ replBrAux repl (some acc) cs) := by
  intro cs
  induction cs with
  | nil =>
    intro _
    constructor
    · rw [replBrAux]; simp
    · intro acc hacc
      rw [replBrAux]
      simp only [List.mem_cons]
      rintro (h | h)
      · exact absurd h (by decide)
      · exact hacc (List.mem_reverse.mp h)
  | cons c rest ih =>
    intro h
    have hc : c ≠ '/' := fun he => h (he ▸ List.mem_cons_self c _)
    have hrest : '/' ∉ rest := fun hm => h (List.mem_cons_of_mem c hm)
    obtain ⟨ih1, ih2⟩ := ih hrest
    constructor
    · rw [replBrAux]
      by_cases hbr : c == '['
      · rw [if_pos hbr]
        exact ih2 [] (by simp)
      · rw [if_neg hbr]
        simp only [List.mem_cons]
        rintro (he | hm)
        · exact hc he.symm
        · exact ih1 hm
    · intro acc hacc
      rw [replBrAux]
      by_cases hcl : c == ']'
      · rw [if_pos hcl]
        by_cases he : acc.isEmpty
        · rw [if_pos he]
          simp only [List.mem_cons]
          rintro (h1 | h1 | h1)
          · exact absurd h1 (by decide)
          · exact absurd h1 (by decide)
          · exact ih1 h1
        · rw [if_neg he]
          simp only [List.mem_append]
          rintro (h1 | h1)
          · exact hrepl acc.reverse (fun hm => hacc (List.mem_reverse.mp hm)) h1
          · exact ih1 h1
      · rw [if_neg hcl]
        refine ih2 (c :: acc) ?_
        simp only [List.mem_cons]
        rintro (he | hm)
        · exact hc he.symm
        · exact hacc hm

/-- Every member of the dedup pass comes from the input and avoids the seen
set. -/
theorem setDedupGo_mem (l : List String) : ∀ (seen : List String) (x : String),
    x ∈ setDedupGo seen l → x ∈ l ∧ x ∉ seen := by
  induction l with
  | nil => intro seen x hx; rw [setDedupGo] at hx; exact absurd hx (List.not_mem_nil x)
  | cons a l ih =>
    intro seen x hx
    rw [setDedupGo] at hx
    by_cases ha : a ∈ seen
    · rw [if_pos ha] at hx
      obtain ⟨h1, h2⟩ := ih seen x hx
      exact ⟨List.mem_cons_of_mem a h1, h2⟩
    · rw [if_neg ha] at hx
      rcases List.mem_cons.mp hx with he | hm
      · exact ⟨he ▸ List.mem_cons_self a l, he ▸ ha⟩
      · obtain ⟨h1, h2⟩ := ih (a :: seen) x hm
        exact ⟨List.mem_cons_of_mem a h1, fun hs => h2 (List.mem_cons_of_mem a hs)⟩

/-- The dedup pass produces a duplicate-free list. -/
theorem setDedupGo_nodup (l : List String) : ∀ seen : List String,
    (setDedupGo seen l).Nodup := by
  induction l with
  | nil => intro seen; rw [setDedupGo]; exact List.nodup_nil
  | cons a l ih =>
    intro seen
    rw [setDedupGo]
    by_cases ha : a ∈ seen
    · rw [if_pos ha]; exact ih seen
    · rw [if_neg ha]
      refine List.nodup_cons.mpr ⟨?_, ih (a :: seen)⟩
      intro hmem
      exact (setDedupGo_mem l (a :: seen) a hmem).2 (List.mem_cons_self a seen)

/-- `setDedup` is duplicate-free. -/
theorem setDedup_nodup (l : List String) : (setDedup l).Nodup :=
  setDedupGo_nodup l []

/-- `setDedup` members come from the input list. -/
theorem setDedup_subset (l : List String) (x : String) (h : x ∈ setDedup l) : x ∈ l :=
  (setDedupGo_mem l [] x h).1

/-- Slash-run collapsing fixes a list with no consecutive slashes. -/
theorem collapseGo_id (l : List Char) (h : noConsecSlash l = true) :
    collapseGo false l = l ∧ (l.head? ≠ some '/' → collapseGo true l = l) := by
  induction l with
  | nil => exact ⟨rfl, fun _ => rfl⟩
  | cons a r ih =>
    cases r with
    | nil =>
      constructor
      · rw [collapseGo]
        by_cases ha : a == '/'
        · rw [if_pos ha]
          have : a = '/' := by simpa using ha
          rw [this, collapseGo]
          simp
        · rw [if_neg ha, collapseGo]
      · intro hh
        have ha : ¬(a == '/') = true := by simpa using hh
        rw [collapseGo, if_neg ha, collapseGo]
    | cons b r' =>
      rw [noConsecSlash] at h
      simp only [Bool.and_eq_true] at h
      obtain ⟨ihf, iht⟩ := ih h.2
      constructor
      · rw [collapseGo]
        by_cases ha : a == '/'
        · rw [if_pos ha]
          have ha' : a = '/' := by simpa using ha
          have hb : b ≠ '/' := by
            intro he
            rw [ha', he] at h
            simpa using h.1
          rw [iht (by simpa using hb)]
          rw [ha']
          simp
        · rw [if_neg ha, ihf]
      · intro hh
        have ha : ¬(a == '/') = true := by simpa using hh
        rw [collapseGo, if_neg ha, ihf]

/-- The string comparator orders by the `<` order on strings. -/
theorem strCmp_neg_iff (a b : String) : strCmp a b < 0 ↔ a < b := by
  rw [strCmp]
  by_cases h1 : a < b
  · rw [if_pos h1]; simp [h1]
  · rw [if_neg h1]
    by_cases h2 : b < a
    · rw [if_pos h2]; simp [h1]
    · rw [if_neg h2]; simp [h1]

/-- Inserting into a descending accumulator keeps it descending. -/
theorem insRev_sorted_ge (e : String) (l : List String)
    (h : l.Pairwise (· ≥ ·)) : (insRev strCmp e l).Pairwise (· ≥ ·) := by
  induction l with
  | nil => simp [insRev]
  | cons x xs ih =>
    rw [List.pairwise_cons] at h
    rw [insRev]
    by_cases hc : strCmp e x < 0
    · rw [if_pos hc]
      rw [List.pairwise_cons]
      constructor
      · intro a ha
        have hmem := (insRev_perm strCmp e xs).mem_iff.mp ha
        rcases List.mem_cons.mp hmem with he | hm
        · rw [he]
          exact le_of_lt ((strCmp_neg_iff e x).mp hc)
        · exact h.1 a hm
      · exact ih h.2
    · rw [if_neg hc]
      have hxe : x ≤ e := by
        rcases le_or_lt x e with h' | h'
        · exact h'
        · exact absurd ((strCmp_neg_iff e x).mpr h') hc
      rw [List.pairwise_cons]
      constructor
      · intro a ha
        rcases List.mem_cons.mp ha with he | hm
        · exact he ▸ hxe
        · exact le_trans (h.1 a hm) hxe
      · rw [List.pairwise_cons]
        exact ⟨h.1, h.2⟩

/-- The insertion fold keeps the accumulator descending. -/
theorem foldl_insRev_sorted_ge (l : List String) : ∀ acc : List String,
    acc.Pairwise (· ≥ ·) →
    (l.foldl (fun a e => insRev strCmp e a) acc).Pairwise (· ≥ ·) := by
  induction l with
  | nil => intro acc h; simpa using h
  | cons x xs ih =>
    intro acc h
    rw [List.foldl_cons]
    exact ih _ (insRev_sorted_ge x acc h)

/-- The string sort produces an ascending list. -/
theorem jsSort_strCmp_sorted (l : List String) :
    (jsSort strCmp l).Pairwise (· ≤ ·) := by
  rw [jsSort]
  rw [List.pairwise_reverse]
  exact foldl_insRev_sorted_ge l [] List.Pairwise.nil

/-- A path extended by a slash and a slash-free segment is clean. -/
theorem cleanPath_extend (p : String) (seg : List Char) (hp : cleanPfx p = true)
    (hns : '/' ∉ seg) : cleanPath (p ++ "/" ++ (⟨seg⟩ : String)) = true := by
  rw [cleanPfx] at hp
  simp only [Bool.and_eq_true] at hp
  have hd : (p ++ "/" ++ (⟨seg⟩ : String)).data = p.data ++ '/' :: seg := data_slash p ⟨seg⟩
  rw [cleanPath]
  simp only [Bool.and_eq_true]
  constructor
  · have hne : (p ++ "/" ++ (⟨seg⟩ : String)) ≠ "" := by
      intro he
      have := congrArg String.data he
      rw [hd] at this
      simp at this
    simpa using hne
  · rw [hd]
    exact noConsec_append p.data seg hp.1 (by simpa using hp.2) hns

/-- A prefix extended by a slash and a nonempty slash-free segment is again
a valid prefix. -/
theorem cleanPfx_extend (p : String) (seg : List Char) (hp : cleanPfx p = true)
    (hne : seg ≠ []) (hns : '/' ∉ seg) :
    cleanPfx (p ++ "/" ++ (⟨seg⟩ : String)) = true := by
  rw [cleanPfx] at hp ⊢
  simp only [Bool.and_eq_true] at hp ⊢
  have hd : (p ++ "/" ++ (⟨seg⟩ : String)).data = p.data ++ '/' :: seg := data_slash p ⟨seg⟩
  rw [hd]
  constructor
  · exact noConsec_append p.data seg hp.1 (by simpa using hp.2) hns
  · cases seg with
    | nil => exact absurd rfl hne
    | cons c r =>
      have hgl : (p.data ++ '/' :: c :: r).getLast? = (c :: r).getLast? := by
        rw [List.getLast?_append_of_ne_nil _ (by simp : ('/' :: c :: r) ≠ [])]
        rw [List.getLast?_cons_cons]
      rw [hgl]
      have hmem : (c :: r).getLast (by simp) ∈ c :: r := List.getLast_mem _
      have hlast : (c :: r).getLast? = some ((c :: r).getLast (by simp)) :=
        List.getLast?_eq_getLast _ _
      rw [hlast]
      have : (c :: r).getLast (by simp) ≠ '/' := by
        intro he
        exact hns (he ▸ hmem)
      simpa using this

/-- Characters of the extension-stripped reversal come from the input. -/
theorem stripExtRev_chars (l : List Char) (c : Char) (hc : c ∈ stripExtRev l) :
    c ∈ l := by
  unfold stripExtRev at hc
  split at hc <;> simp_all

/-- Characters of the extension-stripped name come from the name. -/
theorem stripExt_chars (s : String) (c : Char) (hc : c ∈ (stripExt s).data) :
    c ∈ s.data := by
  rw [stripExt] at hc
  rw [List.mem_reverse] at hc
  have := stripExtRev_chars s.data.reverse c hc
  exact List.mem_reverse.mp this

/-- Inversion of the list form of `goodTree`. -/
theorem goodTreeL_cons (f : FileNode) (rest : List FileNode) :
    goodTreeL (f :: rest) = (goodTree f && goodTreeL rest) := by
  rw [goodTreeL]

/-- Unfolding of `goodTree` on a constructor. -/
theorem goodTree_mk (nm rp pp : String) (d : Bool) (cs : List FileNode) :
    goodTree (.mk nm rp pp d cs) = (goodName nm && goodTreeL cs) := by
  rw [goodTree]

/-- The bracket replacement used for type segments is never empty. -/
theorem replT_ne_nil : ∀ inner : List Char, "\x7bstring\x7d".data ≠ [] :=
  fun _ => by decide

/-- Every path collected from a realistic tree under a valid prefix is
clean: nonempty and without slash runs. -/
theorem collectPaths_clean : ∀ n : Nat, ∀ files : List FileNode, sizeOf files = n →
    ∀ pfx : String, goodTreeL files = true → cleanPfx pfx = true →
    ∀ q ∈ collectPaths files pfx, cleanPath q = true := by
  intro n
  induction n using Nat.strong_induction_on with
  | _ n ih =>
    intro files hsz pfx hg hp q hq
    cases files with
    | nil => rw [collectPaths_nil] at hq; exact absurd hq (List.not_mem_nil q)
    | cons f rest =>
      rw [goodTreeL_cons, Bool.and_eq_true] at hg
      obtain ⟨hgf, hgr⟩ := hg
      obtain ⟨nm, frp, fpp, d, cs⟩ := f
      rw [goodTree_mk, Bool.and_eq_true] at hgf
      obtain ⟨hgn, hgcs⟩ := hgf
      rw [goodName, Bool.and_eq_true] at hgn
      have hnme : nm ≠ "" := by simpa using hgn.1
      have hnsl : '/' ∉ nm.data := by simpa using hgn.2
      have hTns : '/' ∉ (normalizeTypeSegment nm).data := by
        rw [normalizeTypeSegment]
        exact (replBrAux_no_slash _ (fun _ _ => by decide) nm.data hnsl).1
      rw [collectPaths_cons] at hq
      simp only [List.cons.sizeOf_spec] at hsz
      by_cases hd : FileNode.isDirectory (.mk nm frp fpp d cs) = true
      · rw [if_pos hd] at hq
        simp only [FileNode.name, FileNode.children] at hq
        have hTne : (normalizeTypeSegment nm).data ≠ [] := by
          rw [normalizeTypeSegment]
          exact (replBrAux_ne_nil _ (fun _ => by decide)).2 nm.data (string_ne_data nm hnme)
        have hnewClean : cleanPath (pfx ++ "/" ++ normalizeTypeSegment nm) = true := by
          have := cleanPath_extend pfx (normalizeTypeSegment nm).data hp hTns
          simpa using this
        have hnewPfx : cleanPfx (pfx ++ "/" ++ normalizeTypeSegment nm) = true := by
          have := cleanPfx_extend pfx (normalizeTypeSegment nm).data hp hTne hTns
          simpa using this
        rcases List.mem_append.mp hq with hq1 | hq2
        · rcases List.mem_cons.mp hq1 with he | hin
          · rw [he]; exact hnewClean
          · by_cases hce : (cs : List FileNode).isEmpty
            · rw [if_pos hce] at hin
              exact absurd hin (List.not_mem_nil q)
            · rw [if_neg hce] at hin
              refine ih (sizeOf cs) ?_ cs rfl _ hgcs hnewPfx q hin
              simp only [FileNode.mk.sizeOf_spec] at hsz
              omega
        · refine ih (sizeOf rest) ?_ rest rfl pfx hgr hp q hq2
          omega
      · rw [if_neg hd] at hq
        simp only [FileNode.name] at hq
        by_cases hskip : (stripExt nm == "layout" || stripExt nm == "loading"
            || stripExt nm == "404") = true
        · rw [if_pos hskip] at hq
          refine ih (sizeOf rest) ?_ rest rfl pfx hgr hp q hq
          omega
        · rw [if_neg hskip] at hq
          by_cases hidx : (stripExt nm == "index") = true
          · rw [if_pos hidx] at hq
            rcases List.mem_cons.mp hq with he | hq2
            · rw [he]
              by_cases hpe : pfx = ""
              · rw [if_pos hpe]; decide
              · rw [if_neg hpe]
                rw [cleanPath]
                rw [cleanPfx, Bool.and_eq_true] at hp
                simp [hpe, hp.1]
            · refine ih (sizeOf rest) ?_ rest rfl pfx hgr hp q hq2
              omega
          · rw [if_neg hidx] at hq
            rcases List.mem_cons.mp hq with he | hq2
            · rw [he]
              have hcns : '/' ∉ (stripExt nm).data := by
                intro hm
                exact hnsl (stripExt_chars nm '/' hm)
              have hTns2 : '/' ∉ (normalizeTypeSegment (stripExt nm)).data := by
                rw [normalizeTypeSegment]
                exact (replBrAux_no_slash _ (fun _ _ => by decide) _ hcns).1
              have := cleanPath_extend pfx (normalizeTypeSegment (stripExt nm)).data hp hTns2
              simpa using this
            · refine ih (sizeOf rest) ?_ rest rfl pfx hgr hp q hq2
              omega

/-- On a list of clean paths, the normalization of `buildTypeUnion` is the
deduplicated list itself, so the rendered list is duplicate-free and
lexicographically sorted. -/
theorem buildTypeUnionList_clean (paths : List String)
    (h : ∀ q ∈ paths, cleanPath q = true) :
    buildTypeUnionList paths = jsSort strCmp (setDedup paths)
      ∧ (buildTypeUnionList paths).Nodup
      ∧ (buildTypeUnionList paths).Pairwise (· ≤ ·) := by
  have h1 : (setDedup paths).map collapseSlashes = setDedup paths := by
    have hcg : ∀ q ∈ setDedup paths, collapseSlashes q = id q := by
      intro q hq
      have hcl := h q (setDedup_subset paths q hq)
      rw [cleanPath, Bool.and_eq_true] at hcl
      show collapseSlashes q = q
      rw [collapseSlashes, (collapseGo_id q.data hcl.2).1]
    rw [List.map_congr_left hcg, List.map_id]
  have h2 : ((setDedup paths).map collapseSlashes).map (fun p => if p = "" then "/" else p)
      = setDedup paths := by
    rw [h1]
    have hcg : ∀ q ∈ setDedup paths, (fun p => if p = "" then "/" else p) q = id q := by
      intro q hq
      have hcl := h q (setDedup_subset paths q hq)
      rw [cleanPath, Bool.and_eq_true] at hcl
      have hne : q ≠ "" := by simpa using hcl.1
      simp [hne]
    rw [List.map_congr_left hcg, List.map_id]
  have hb : buildTypeUnionList paths = jsSort strCmp (setDedup paths) := by
    rw [buildTypeUnionList, h2]
  refine ⟨hb, ?_, ?_⟩
  · rw [hb]
    exact ((jsSort_perm strCmp (setDedup paths)).nodup_iff).mpr (setDedup_nodup paths)
  · rw [hb]
    exact jsSort_strCmp_sorted _

/-- A file whose extension-stripped name is exactly `layout` or `loading`
(or `404`) contributes nothing to `collectPaths`, wherever it sits among its
siblings. -/
theorem collectPaths_skip_insert (pre post : List FileNode) (f : FileNode) (p : String)
    (hdir : f.isDirectory = false)
    (hskip : stripExt f.name = "layout" ∨ stripExt f.name = "loading"
      ∨ stripExt f.name = "404") :
    collectPaths (pre ++ f :: post) p = collectPaths (pre ++ post) p := by
  induction pre with
  | nil =>
    simp only [List.nil_append]
    rw [collectPaths_cons]
    rw [if_neg (by simp [hdir])]
    rw [if_pos (by rcases hskip with h | h | h <;> simp [h])]
  | cons g pre' ih =>
    rw [List.cons_append, List.cons_append, collectPaths_cons, collectPaths_cons, ih]

/-- An `index` file contributes exactly its parent's accumulated path (or
the root path at the top level), in encounter position. -/
theorem collectPaths_index_insert (pre post : List FileNode) (f : FileNode) (p : String)
    (hdir : f.isDirectory = false) (hidx : stripExt f.name = "index") :
    collectPaths (pre ++ f :: post) p
      = collectPaths pre p ++ (if p = "" then "/" else p) :: collectPaths post p := by
  induction pre with
  | nil =>
    simp only [List.nil_append]
    rw [collectPaths_cons]
    rw [if_neg (by simp [hdir])]
    rw [if_neg (by simp [hidx])]
    rw [if_pos (by simp [hidx])]
    simp [collectPaths_nil]
  | cons g pre' ih =>
    rw [List.cons_append, collectPaths_cons, collectPaths_cons, ih]
    split
    · simp [List.append_assoc]
    · split
      · rfl
      · split
        · simp
        · simp

/-- Claim C8 (amended): a file whose extension-stripped base name is exactly
the lowercase `layout` or `loading` contributes no path to the type union
(the skip is case-sensitive, so a case variant such as `Layout.tsx`, which
the route generator itself treats as a layout file, does contribute a path:
see the counterexample); every `index` file contributes its parent's
accumulated path, or the root path `/` at the top level; and for a tree of
nonempty slash-free entry names, the final rendered list of path strings is
duplicate-free and lexicographically sorted. -/
theorem c8_amended :
    (∀ (pre post : List FileNode) (f : FileNode) (p : String),
        f.isDirectory = false →
        (stripExt f.name = "layout" ∨ stripExt f.name = "loading") →
        collectPaths (pre ++ f :: post) p = collectPaths (pre ++ post) p)
      ∧ (∀ (pre post : List FileNode) (f : FileNode) (p : String),
          f.isDirectory = false → stripExt f.name = "index" →
          collectPaths (pre ++ f :: post) p
            = collectPaths pre p ++ (if p = "" then "/" else p) :: collectPaths post p)
      ∧ (∀ files : List FileNode, goodTreeL files = true →
          (buildTypeUnionList (collectPaths files "")).Nodup
            ∧ (buildTypeUnionList (collectPaths files "")).Pairwise (· ≤ ·)) := by
  refine ⟨?_, ?_, ?_⟩
  · intro pre post f p hdir hskip
    exact collectPaths_skip_insert pre post f p hdir
      (by rcases hskip with h | h
          · exact Or.inl h
          · exact Or.inr (Or.inl h))
  · exact collectPaths_index_insert
  · intro files hg
    have hclean : ∀ q ∈ collectPaths files "", cleanPath q = true :=
      collectPaths_clean (sizeOf files) files rfl "" hg (by decide)
    have := buildTypeUnionList_clean (collectPaths files "") hclean
    exact ⟨this.2.1, this.2.2⟩

/-- Counterexample for claim C8 as stated: `Layout.tsx` matches the route
generator's case-insensitive layout convention, yet the type-union pass,
whose skip test is case-sensitive, lets it contribute the path `/Layout`. -/
theorem c8_counterexample :
    isLayoutFileName upperLayoutNode.name = true
      ∧ buildTypeUnionList (collectPaths [upperLayoutNode] "") = ["/Layout"] := by
  constructor
  · rfl
  · have h : collectPaths [upperLayoutNode] "" = ["/Layout"] := by
      rw [upperLayoutNode, collectPaths_cons]
      simp only [FileNode.isDirectory, FileNode.name]
      rw [if_neg (by decide), if_neg (by decide), if_neg (by decide), collectPaths_nil]
      rfl
    rw [h]
    rfl

/-- Witness for claim C8 as amended, at concrete inputs: a lowercase
top-level `layout.tsx` contributes nothing, a top-level `index.tsx`
contributes the root path, and a sample path list with a duplicate is
deduplicated (and `/about` is a clean path). -/
theorem c8_witness :
    collectPaths [rootLayoutNode, aboutNode] "" = collectPaths [aboutNode] ""
      ∧ collectPaths [indexNode] "" = ["/"]
      ∧ (buildTypeUnionList (collectPaths [aboutNode, aboutNode] "")).Nodup := by
  obtain ⟨h1, h2, h3⟩ := c8_amended
  refine ⟨?_, ?_, ?_⟩
  · have := h1 [] [aboutNode] rootLayoutNode "" rfl (Or.inl rfl)
    simpa using this
  · have := h2 [] [] indexNode "" rfl rfl
    simp [collectPaths_nil] at this
    exact this
  · exact (h3 [aboutNode, aboutNode] (by decide)).1

/-- `split("/")` never returns an empty group list. -/
theorem splitSlashCh_ne_nil (l : List Char) : splitSlashCh l ≠ [] := by
  cases l with
  | nil => simp [splitSlashCh]
  | cons c rest =>
    rw [splitSlashCh]
    by_cases hc : c == '/'
    · rw [if_pos hc]; simp
    · rw [if_neg hc]
      cases h : splitSlashCh rest <;> simp

/-- Splitting at slashes distributes over concatenation with a slash. -/
theorem splitSlashCh_append (xs ys : List Char) :
    splitSlashCh (xs ++ '/' :: ys) = splitSlashCh xs ++ splitSlashCh ys := by
  induction xs with
  | nil =>
    rw [List.nil_append]
    simp [splitSlashCh]
  | cons c xs' ih =>
    rw [List.cons_append]
    by_cases hc : c == '/'
    · rw [splitSlashCh, if_pos hc, ih]
      rw [splitSlashCh, if_pos hc]
      simp
    · rw [splitSlashCh, if_neg hc, ih]
      rw [splitSlashCh, if_neg hc]
      cases h : splitSlashCh xs' with
      | nil => exact absurd h (splitSlashCh_ne_nil xs')
      | cons s ss => simp

/-- String version of the split distribution. -/
theorem splitSlash_append (a b : String) :
    splitSlash (a ++ "/" ++ b) = splitSlash a ++ splitSlash b := by
  rw [splitSlash, splitSlash, splitSlash, data_slash, splitSlashCh_append, List.map_append]

/-- A slash-free string is its own single segment. -/
theorem splitSlash_single (s : String) (h : '/' ∉ s.data) : splitSlash s = [s] := by
  rw [splitSlash, splitSlashCh_no_slash s.data h]
  rfl

/-- Segmentwise correspondence concatenates. -/
theorem specMatchSegs_append (a c : List String) : ∀ b d : List String,
    specMatchSegs a b = true → specMatchSegs c d = true →
    specMatchSegs (a ++ c) (b ++ d) = true := by
  induction a with
  | nil =>
    intro b d h1 h2
    cases b with
    | nil => simpa using h2
    | cons r rs => simp [specMatchSegs] at h1
  | cons t ts ih =>
    intro b d h1 h2
    cases b with
    | nil => simp [specMatchSegs] at h1
    | cons r rs =>
      rw [specMatchSegs, Bool.and_eq_true] at h1
      rw [List.cons_append, List.cons_append, specMatchSegs, Bool.and_eq_true]
      exact ⟨h1.1, ih rs d h1.2 h2⟩

/-- Extending two corresponding paths by one corresponding slash-free
segment each keeps the correspondence. -/
theorem specMatchPath_append (x a y b : String) (h : specMatchPath x a = true)
    (hy : '/' ∉ y.data) (hb : '/' ∉ b.data) (hseg : specMatchSeg y b = true) :
    specMatchPath (x ++ "/" ++ y) (a ++ "/" ++ b) = true := by
  rw [specMatchPath, splitSlash_append, splitSlash_append,
    splitSlash_single y hy, splitSlash_single b hb]
  refine specMatchSegs_append _ _ _ _ h ?_
  rw [specMatchSegs, Bool.and_eq_true]
  exact ⟨hseg, rfl⟩

/-- For a lowercase, slash-free, non-`404`, well-bracketed name, the type
segment corresponds to the route segment, and neither contains a slash. -/
theorem seg_match (nm : String) (h2 : '/' ∉ nm.data)
    (h3 : allLowerStr nm = true) (h4 : nm ≠ "404") (h5 : segOkC nm.data = true) :
    specMatchSeg (normalizeTypeSegment nm) (normalizeSegment nm) = true
      ∧ '/' ∉ (normalizeTypeSegment nm).data
      ∧ '/' ∉ (normalizeSegment nm).data := by
  have hlow : jsToLower nm = nm := allLower_id nm h3
  have h404 : ¬(jsToLower nm = "404") := by rw [hlow]; exact h4
  rw [normalizeSegment, if_neg h404]
  rw [segOkC] at h5
  simp only [Bool.or_eq_true, Bool.and_eq_true] at h5
  rcases h5 with hnob | hgrp
  · have hnotin : '[' ∉ nm.data := by simpa using hnob.1
    have hnb : ∀ c ∈ nm.data, c ≠ '[' := fun c hc he => hnotin (he ▸ hc)
    rw [normalizeTypeSegment, replBrT, replBrC]
    rw [replBrAux_no_bracket _ nm.data hnb, replBrAux_no_bracket _ nm.data hnb]
    refine ⟨?_, ?_, ?_⟩
    · show specMatchSeg nm (jsToLower nm) = true
      rw [hlow]
      simp [specMatchSeg]
    · exact h2
    · show '/' ∉ (jsToLower nm).data
      rw [hlow]
      exact h2
  · obtain ⟨⟨⟨⟨hh, ht⟩, hmne⟩, hm1⟩, hm2⟩ := hgrp
    cases hd : nm.data with
    | nil => rw [hd] at hh; simp at hh
    | cons c rest =>
      rw [hd] at hh ht hmne hm1 hm2
      have hc : c = '[' := by simpa using hh
      simp only [List.tail_cons] at ht hmne hm1 hm2
      cases hrv : rest.reverse with
      | nil => rw [hrv] at ht; simp at ht
      | cons e mrev =>
        rw [hrv] at ht hmne hm1 hm2
        have he : e = ']' := by simpa using ht
        simp only [List.tail_cons] at hmne hm1 hm2
        have hrest : rest = mrev.reverse ++ [']'] := by
          have hrr := congrArg List.reverse hrv
          rw [List.reverse_reverse] at hrr
          rw [hrr, List.reverse_cons, he]
        have hmidne : mrev.reverse ≠ [] := by
          simp only [ne_eq, List.reverse_eq_nil_iff]
          simpa using hmne
        have hmidnb : ∀ c' ∈ mrev.reverse, c' ≠ ']' := by
          intro c' hc' he'
          have hmem : ']' ∈ mrev := List.mem_reverse.mp (he' ▸ hc')
          have hnotin : ']' ∉ mrev := by simpa using hm2
          exact hnotin hmem
        have hdata : nm.data = '[' :: mrev.reverse ++ [']'] := by
          rw [hd, hc, hrest]
          simp
        have hTgrp : replBrT nm.data = "\x7bstring\x7d".data := by
          rw [replBrT, hdata]
          exact replBrAux_group _ mrev.reverse hmidne hmidnb
        have hCgrp : replBrC nm.data = ':' :: mrev.reverse := by
          rw [replBrC, hdata]
          exact replBrAux_group _ mrev.reverse hmidne hmidnb
        have hmidmem : ∀ c' ∈ mrev.reverse, c' ∈ nm.data := by
          intro c' hc'
          rw [hdata]
          exact List.mem_cons_of_mem _ (List.mem_append_left _ hc')
        have hlowmid : jsToLower ⟨':' :: mrev.reverse⟩ = ⟨':' :: mrev.reverse⟩ := by
          apply allLower_id
          rw [allLowerStr]
          simp only [List.all_cons, Bool.and_eq_true]
          refine ⟨by decide, ?_⟩
          rw [List.all_eq_true]
          intro c' hc'
          rw [allLowerStr, List.all_eq_true] at h3
          exact h3 c' (hmidmem c' hc')
        rw [normalizeTypeSegment, hTgrp, ← hd, hCgrp, hlowmid]
        refine ⟨?_, ?_, ?_⟩
        · simp [specMatchSeg]
        · show '/' ∉ "\x7bstring\x7d".data
          decide
        · show '/' ∉ ':' :: mrev.reverse
          simp only [List.mem_cons]
          rintro (he' | hm)
          · exact absurd he' (by decide)
          · exact h2 (hmidmem '/' hm)

/-- One node's contribution splits off the front of `allRoutePaths`. -/
theorem allRoutePaths_cons (acc : String) (r : RouteConfig) (rest : List RouteConfig) :
    allRoutePaths acc (r :: rest) = routeNodePaths acc r ++ allRoutePaths acc rest := by
  obtain ⟨p, e, m, c⟩ := r
  cases c with
  | none => simp [allRoutePaths, routeNodePaths]
  | some cs => simp [allRoutePaths, routeNodePaths]

/-- Permuting a sibling list permutes its collected route paths. -/
theorem allRoutePaths_perm {l₁ l₂ : List RouteConfig} (h : List.Perm l₁ l₂) (acc : String) :
    List.Perm (allRoutePaths acc l₁) (allRoutePaths acc l₂) := by
  induction h with
  | nil => exact List.Perm.refl _
  | cons x h ih => rw [allRoutePaths_cons, allRoutePaths_cons]; exact List.Perm.append_left _ ih
  | swap x y l =>
    rw [allRoutePaths_cons, allRoutePaths_cons, allRoutePaths_cons, allRoutePaths_cons]
    rw [← List.append_assoc, ← List.append_assoc]
    exact List.Perm.append_right _ List.perm_append_comm
  | trans h₁ h₂ ih₁ ih₂ => exact ih₁.trans ih₂

/-- Inversion of the list form of `good9`. -/
theorem good9L_cons (f : FileNode) (rest : List FileNode) :
    good9L (f :: rest) = (good9 f && good9L rest) := by
  rw [good9L]

/-- Unfolding of `good9` on a constructor. -/
theorem good9_mk (nm rp pp : String) (d : Bool) (cs : List FileNode) :
    good9 (.mk nm rp pp d cs)
      = (allLowerStr nm && !((if d then nm else stripExt nm) == "")
          && !(if d then nm else stripExt nm).data.contains '/'
          && allLowerStr (if d then nm else stripExt nm)
          && !((if d then nm else stripExt nm) == "404")
          && segOkC (if d then nm else stripExt nm).data
          && (!d || (!isLayoutFileName nm && !isLoadingFileName nm))
          && good9L cs) := by
  rw [good9]

/-- A lowercase name matching the layout convention strips to `layout`. -/
theorem layout_name_resolve (nm : String) (hl : allLowerStr nm = true)
    (h : isLayoutFileName nm = true) : stripExt nm = "layout" := by
  simp only [isLayoutFileName, allLower_id nm hl, Bool.or_eq_true, beq_iff_eq] at h
  rcases h with ((h | h) | h) | h <;> rw [h] <;> rfl

/-- A lowercase name matching the loading convention strips to `loading`. -/
theorem loading_name_resolve (nm : String) (hl : allLowerStr nm = true)
    (h : isLoadingFileName nm = true) : stripExt nm = "loading" := by
  simp only [isLoadingFileName, allLower_id nm hl, Bool.or_eq_true, beq_iff_eq] at h
  rcases h with ((h | h) | h) | h <;> rw [h] <;> rfl

/-- Filtering preserves `good9L`. -/
theorem good9L_filter (p : FileNode → Bool) (l : List FileNode) (h : good9L l = true) :
    good9L (l.filter p) = true := by
  induction l with
  | nil => rfl
  | cons f rest ih =>
    rw [good9L_cons, Bool.and_eq_true] at h
    rw [List.filter_cons]
    split
    · rw [good9L_cons, Bool.and_eq_true]
      exact ⟨h.1, ih h.2⟩
    · exact ih h.2

/-- Characters of a name either survive extension stripping or belong to a
recognized extension. -/
theorem stripExtRev_chars_rev (l : List Char) (c : Char) (hc : c ∈ l) :
    c ∈ stripExtRev l ∨ c ∈ ['.', 't', 's', 'x', 'j'] := by
  unfold stripExtRev
  split <;> simp_all <;> tauto

/-- String version of `stripExtRev_chars_rev`. -/
theorem stripExt_chars_rev (s : String) (c : Char) (hc : c ∈ s.data) :
    c ∈ (stripExt s).data ∨ c ∈ ['.', 't', 's', 'x', 'j'] := by
  rw [stripExt]
  rcases stripExtRev_chars_rev s.data.reverse c (List.mem_reverse.mpr hc) with h | h
  · exact Or.inl (by simpa using List.mem_reverse.mpr h)
  · exact Or.inr h

/-- `good9` trees are `goodTree` trees. -/
theorem good9_to_goodTree : ∀ n : Nat,
    (∀ f : FileNode, sizeOf f = n → good9 f = true → goodTree f = true)
      ∧ (∀ l : List FileNode, sizeOf l = n → good9L l = true → goodTreeL l = true) := by
  intro n
  induction n using Nat.strong_induction_on with
  | _ n ih =>
    constructor
    · intro f hsz hg
      obtain ⟨nm, frp, fpp, d, cs⟩ := f
      rw [good9_mk] at hg
      simp only [Bool.and_eq_true] at hg
      obtain ⟨⟨⟨⟨⟨⟨⟨hA, hB⟩, hC⟩, hD⟩, hE⟩, hF⟩, hG⟩, hH⟩ := hg
      rw [goodTree_mk, Bool.and_eq_true]
      constructor
      · rw [goodName, Bool.and_eq_true]
        cases d with
        | true =>
          simp only [if_pos rfl] at hB hC
          exact ⟨hB, hC⟩
        | false =>
          simp only [if_neg (by decide : ¬(false = true))] at hB hC
          constructor
          · by_cases hnm : nm = ""
            · rw [hnm] at hB
              exact absurd hB (by decide)
            · simpa using hnm
          · have hns : '/' ∉ (stripExt nm).data := by simpa using hC
            have : '/' ∉ nm.data := by
              intro hm
              rcases stripExt_chars_rev nm '/' hm with h | h
              · exact hns h
              · simp at h
            simpa using this
      · refine (ih (sizeOf cs) ?_ ).2 cs rfl hH
        simp only [FileNode.mk.sizeOf_spec] at hsz
        omega
    · intro l hsz hg
      cases l with
      | nil => rfl
      | cons f rest =>
        rw [good9L_cons, Bool.and_eq_true] at hg
        rw [goodTreeL_cons, Bool.and_eq_true]
        simp only [List.cons.sizeOf_spec] at hsz
        constructor
        · exact (ih (sizeOf f) (by omega)).1 f rfl hg.1
        · exact (ih (sizeOf rest) (by omega)).2 rest rfl hg.2

/-- Removing layout/loading-named children changes nothing for
`collectPaths` on a `good9` sibling list. -/
theorem collectPaths_filter (cs : List FileNode) (p : String) (h : good9L cs = true) :
    collectPaths
        (cs.filter (fun f => !isLayoutFileName f.name && !isLoadingFileName f.name)) p
      = collectPaths cs p := by
  induction cs with
  | nil => rw [List.filter_nil]
  | cons f rest ih =>
    rw [good9L_cons, Bool.and_eq_true] at h
    obtain ⟨hf, hrest⟩ := h
    rw [List.filter_cons]
    by_cases hp : (!isLayoutFileName f.name && !isLoadingFileName f.name) = true
    · rw [if_pos hp, collectPaths_cons, collectPaths_cons, ih hrest]
    · rw [if_neg hp]
      obtain ⟨nm, frp, fpp, d, cs'⟩ := f
      rw [good9_mk] at hf
      simp only [Bool.and_eq_true] at hf
      obtain ⟨⟨⟨⟨⟨⟨⟨hA, hB⟩, hC⟩, hD⟩, hE⟩, hF⟩, hG⟩, hH⟩ := hf
      simp only [FileNode.name] at hp
      cases d with
      | true =>
        exfalso
        apply hp
        simpa using hG
      | false =>
        have hll : isLayoutFileName nm = true ∨ isLoadingFileName nm = true := by
          by_cases hL : isLayoutFileName nm = true
          · exact Or.inl hL
          · refine Or.inr ?_
            by_cases hLo : isLoadingFileName nm = true
            · exact hLo
            · exfalso
              apply hp
              simp only [Bool.and_eq_true, Bool.not_eq_true']
              exact ⟨by simpa using hL, by simpa using hLo⟩
        have hstrip : stripExt nm = "layout" ∨ stripExt nm = "loading" := by
          rcases hll with h' | h'
          · exact Or.inl (layout_name_resolve nm hA h')
          · exact Or.inr (loading_name_resolve nm hA h')
        rw [collectPaths_cons]
        rw [if_neg (by simp [FileNode.isDirectory])]
        rw [if_pos (by simp only [FileNode.name]; rcases hstrip with h' | h' <;> simp [h'])]
        exact ih hrest

/-- The route list of one `routesPreSort` step, at the projection level. -/
theorem routesPreSort_fst_cons (f : FileNode) (rest : List FileNode) (p : String) (c : Bool)
    (fln : Option String) (st : GenState) :
    (routesPreSort (f :: rest) p c fln st).1
      = (if f.isDirectory then createDirectoryRoute f c st
         else createFileRoute f p c fln st).1
        :: (routesPreSort rest p c fln
            (if f.isDirectory then createDirectoryRoute f c st
             else createFileRoute f p c fln st).2).1 := by
  rw [routesPreSort_cons]

/-- The route of `createFileRoute`, at the projection level. -/
theorem createFileRoute_fst (file : FileNode) (p : String) (c : Bool) (fln : Option String)
    (st : GenState) :
    (createFileRoute file p c fln st).1
      = RouteConfig.mk
          (if !c && !(p = "") then
            p ++ "/" ++ (if jsToLower (stripExt file.name) = "index" then ""
                         else normalizeSegment (stripExt file.name))
           else (if jsToLower (stripExt file.name) = "index" then ""
                 else normalizeSegment (stripExt file.name)))
          (some ("React.createElement(" ++ getPrefixedName file p "" ++ ")")) none none := by
  rw [createFileRoute]

/-- The path contribution of a directory route: its own segment path, then,
when the directory keeps non-layout non-loading children, the contributions
of the recursively generated child routes (under some import state and
loading name). -/
theorem dirRoute_shape (file : FileNode) (c : Bool) (st : GenState) (acc : String) :
    ∃ (st₂ : GenState) (ln : Option String),
      routeNodePaths acc (createDirectoryRoute file c st).1
        = (acc ++ "/" ++ normalizeSegment file.name)
          :: (if (file.children.filter
                (fun f => !isLayoutFileName f.name && !isLoadingFileName f.name)).isEmpty
              then []
              else allRoutePaths (acc ++ "/" ++ normalizeSegment file.name)
                (fileDataToRoutes
                  (file.children.filter
                    (fun f => !isLayoutFileName f.name && !isLoadingFileName f.name))
                  (normalizeSegment file.name) true ln st₂).1) := by
  refine ⟨(match List.find? (fun f => isLoadingFileName f.name) file.children with
           | some ld =>
             addImport ld (getPrefixedName ld file.relative_path "Loading")
               (match List.find? (fun f => isLayoutFileName f.name) file.children with
                | some lf => addImport lf (getPrefixedName lf file.relative_path "Layout") st
                | none => st)
           | none =>
             (match List.find? (fun f => isLayoutFileName f.name) file.children with
              | some lf => addImport lf (getPrefixedName lf file.relative_path "Layout") st
              | none => st)),
         (match List.find? (fun f => isLoadingFileName f.name) file.children with
          | some ld => some (getPrefixedName ld file.relative_path "Loading")
          | none => none), ?_⟩
  rw [createDirectoryRoute_eq2]
  by_cases he : (file.children.filter
      (fun f => !isLayoutFileName f.name && !isLoadingFileName f.name)).isEmpty
  · rw [if_pos he, if_pos he]
    rw [routeNodePaths]
    rw [if_pos he]
  · rw [if_neg he, if_neg he]
    rw [routeNodePaths]
    rw [if_neg he]

/-- The `good9` facts of a directory node, in accessor form. -/
theorem good9_dir_props (f : FileNode) (hd : f.isDirectory = true) (hg : good9 f = true) :
    allLowerStr f.name = true ∧ ¬(f.name = "") ∧ '/' ∉ f.name.data
      ∧ ¬(f.name = "404") ∧ segOkC f.name.data = true ∧ good9L f.children = true := by
  obtain ⟨nm, frp, fpp, d, cs⟩ := f
  have hd' : d = true := by simpa [FileNode.isDirectory] using hd
  subst hd'
  rw [good9_mk, if_pos rfl] at hg
  simp only [Bool.and_eq_true] at hg
  obtain ⟨⟨⟨⟨⟨⟨⟨hA, hB⟩, hC⟩, hD⟩, hE⟩, hF⟩, hG⟩, hH⟩ := hg
  simp only [FileNode.name, FileNode.children]
  exact ⟨hA, by simpa using hB, by simpa using hC, by simpa using hE, hF, hH⟩

/-- The `good9` facts of a file node, in accessor form. -/
theorem good9_file_props (f : FileNode) (hd : f.isDirectory = false) (hg : good9 f = true) :
    allLowerStr f.name = true ∧ ¬(stripExt f.name = "")
      ∧ '/' ∉ (stripExt f.name).data ∧ allLowerStr (stripExt f.name) = true
      ∧ ¬(stripExt f.name = "404") ∧ segOkC (stripExt f.name).data = true := by
  obtain ⟨nm, frp, fpp, d, cs⟩ := f
  have hd' : d = false := by simpa [FileNode.isDirectory] using hd
  subst hd'
  rw [good9_mk, if_neg (by simp)] at hg
  simp only [Bool.and_eq_true] at hg
  obtain ⟨⟨⟨⟨⟨⟨⟨hA, hB⟩, hC⟩, hD⟩, hE⟩, hF⟩, hG⟩, hH⟩ := hg
  simp only [FileNode.name]
  exact ⟨hA, by simpa using hB, by simpa using hC, hD, by simpa using hE, hF⟩

/-- Main correspondence: for a `good9` sibling list, every collected type
path under prefix `pfx` is matched by some route path of the generated route
forest under accumulator `acc`, or is the prefix itself (handed to the
caller, who owns a matching route node). -/
theorem roundTripAux : ∀ n : Nat, ∀ files : List FileNode, sizeOf files = n →
    ∀ (pfx acc parentPath : String) (isChild : Bool) (fln : Option String) (st : GenState),
    good9L files = true →
    (isChild = true ∨ parentPath = "") →
    specMatchPath pfx acc = true →
    ∀ tp ∈ collectPaths files pfx,
      (∃ rp ∈ allRoutePaths acc (fileDataToRoutes files parentPath isChild fln st).1,
        specMatchPath tp rp = true)
        ∨ (tp = pfx ∧ ¬(pfx = "")) := by
  intro n
  induction n using Nat.strong_induction_on with
  | _ n ih =>
    intro files hsz pfx acc parentPath isChild fln st hg hpc hmatch tp htp
    cases files with
    | nil => rw [collectPaths_nil] at htp; exact absurd htp (List.not_mem_nil tp)
    | cons f rest =>
      rw [good9L_cons, Bool.and_eq_true] at hg
      obtain ⟨hgf, hgrest⟩ := hg
      simp only [List.cons.sizeOf_spec] at hsz
      rw [fileDataToRoutes_fst]
      have hperm := allRoutePaths_perm
        (jsSort_perm cmpRoute (routesPreSort (f :: rest) parentPath isChild fln st).1) acc
      suffices hs : (∃ rp ∈ allRoutePaths acc
            (routesPreSort (f :: rest) parentPath isChild fln st).1,
            specMatchPath tp rp = true)
          ∨ (tp = pfx ∧ ¬(pfx = "")) by
        rcases hs with ⟨rp, hrp, hm⟩ | hright
        · exact Or.inl ⟨rp, hperm.mem_iff.mpr hrp, hm⟩
        · exact Or.inr hright
      rw [routesPreSort_fst_cons, allRoutePaths_cons]
      rw [collectPaths_cons] at htp
      by_cases hdir : f.isDirectory = true
      · rw [if_pos hdir]
        rw [if_pos hdir] at htp
        obtain ⟨hA, hBne, hCs, h404, hsegO, hch⟩ := good9_dir_props f hdir hgf
        have hsm := seg_match f.name hCs hA h404 hsegO
        have hmatch' : specMatchPath (pfx ++ "/" ++ normalizeTypeSegment f.name)
            (acc ++ "/" ++ normalizeSegment f.name) = true :=
          specMatchPath_append pfx acc _ _ hmatch hsm.2.1 hsm.2.2 hsm.1
        obtain ⟨st₂, ln, hshape⟩ := dirRoute_shape f isChild st acc
        rw [hshape]
        rcases List.mem_append.mp htp with htp1 | htp2
        · rcases List.mem_cons.mp htp1 with heq | hin
          · left
            refine ⟨acc ++ "/" ++ normalizeSegment f.name,
              List.mem_append_left _ (List.mem_cons_self _ _), ?_⟩
            rw [heq]
            exact hmatch'
          · by_cases hce : (f.children : List FileNode).isEmpty
            · rw [if_pos hce] at hin
              exact absurd hin (List.not_mem_nil tp)
            · rw [if_neg hce] at hin
              rw [← collectPaths_filter f.children
                (pfx ++ "/" ++ normalizeTypeSegment f.name) hch] at hin
              by_cases hfe : (f.children.filter
                  (fun f => !isLayoutFileName f.name && !isLoadingFileName f.name)).isEmpty
              · rw [List.isEmpty_iff.mp hfe, collectPaths_nil] at hin
                exact absurd hin (List.not_mem_nil tp)
              · have hlt : sizeOf (f.children.filter
                    (fun f => !isLayoutFileName f.name && !isLoadingFileName f.name)) < n := by
                  have h1 := sizeOf_filter_le
                    (fun (f : FileNode) => !isLayoutFileName f.name && !isLoadingFileName f.name)
                    f.children
                  have h2 := sizeOf_children_lt f
                  omega
                have hIH := ih _ hlt (f.children.filter
                    (fun f => !isLayoutFileName f.name && !isLoadingFileName f.name)) rfl
                  (pfx ++ "/" ++ normalizeTypeSegment f.name)
                  (acc ++ "/" ++ normalizeSegment f.name)
                  (normalizeSegment f.name) true ln st₂
                  (good9L_filter _ _ hch) (Or.inl rfl) hmatch' tp hin
                rcases hIH with ⟨rp, hrp, hm⟩ | ⟨heq, _⟩
                · left
                  refine ⟨rp, ?_, hm⟩
                  apply List.mem_append_left
                  apply List.mem_cons_of_mem
                  rw [if_neg hfe]
                  exact hrp
                · left
                  refine ⟨acc ++ "/" ++ normalizeSegment f.name,
                    List.mem_append_left _ (List.mem_cons_self _ _), ?_⟩
                  rw [heq]
                  exact hmatch'
        · have hIH := ih (sizeOf rest) (by omega) rest rfl pfx acc parentPath isChild fln
            ((createDirectoryRoute f isChild st).2) hgrest hpc hmatch tp htp2
          rcases hIH with ⟨rp, hrp, hm⟩ | hright
          · left
            refine ⟨rp, ?_, hm⟩
            apply List.mem_append_right
            rw [fileDataToRoutes_fst] at hrp
            exact (allRoutePaths_perm (jsSort_perm cmpRoute _) acc).mem_iff.mp hrp
          · right
            exact hright
      · rw [if_neg hdir]
        rw [if_neg hdir] at htp
        have hdf : f.isDirectory = false := by simpa using hdir
        obtain ⟨hA, hBne, hCs, hD, h404, hsegO⟩ := good9_file_props f hdf hgf
        have hps : (createFileRoute f parentPath isChild fln st).1
            = RouteConfig.mk
                (if jsToLower (stripExt f.name) = "index" then ""
                 else normalizeSegment (stripExt f.name))
                (some ("React.createElement(" ++ getPrefixedName f parentPath "" ++ ")"))
                none none := by
          rw [createFileRoute_fst]
          rcases hpc with h | h <;> simp [h]
        rw [hps]
        have hrestIH : tp ∈ collectPaths rest pfx →
            (∃ rp ∈ routeNodePaths acc (RouteConfig.mk
                (if jsToLower (stripExt f.name) = "index" then ""
                 else normalizeSegment (stripExt f.name))
                (some ("React.createElement(" ++ getPrefixedName f parentPath "" ++ ")"))
                none none)
              ++ allRoutePaths acc (routesPreSort rest parentPath isChild fln
                  (createFileRoute f parentPath isChild fln st).2).1,
              specMatchPath tp rp = true)
              ∨ (tp = pfx ∧ ¬(pfx = "")) := by
          intro htp2
          have hIH := ih (sizeOf rest) (by omega) rest rfl pfx acc parentPath isChild fln
            ((createFileRoute f parentPath isChild fln st).2) hgrest hpc hmatch tp htp2
          rcases hIH with ⟨rp, hrp, hm⟩ | hright
          · left
            refine ⟨rp, ?_, hm⟩
            apply List.mem_append_right
            rw [fileDataToRoutes_fst] at hrp
            exact (allRoutePaths_perm (jsSort_perm cmpRoute _) acc).mem_iff.mp hrp
          · right
            exact hright
        by_cases hskip : (stripExt f.name == "layout" || stripExt f.name == "loading"
            || stripExt f.name == "404") = true
        · rw [if_pos hskip] at htp
          exact hrestIH htp
        · rw [if_neg hskip] at htp
          by_cases hidx : (stripExt f.name == "index") = true
          · rw [if_pos hidx] at htp
            have hidx' : jsToLower (stripExt f.name) = "index" := by
              rw [allLower_id _ hD]
              exact beq_iff_eq.mp hidx
            rcases List.mem_cons.mp htp with heq | htp2
            · by_cases hpe : pfx = ""
              · left
                refine ⟨acc ++ "/" ++ "", ?_, ?_⟩
                · apply List.mem_append_left
                  rw [routeNodePaths, if_pos hidx']
                  exact List.mem_cons_self _ _
                · rw [heq, if_pos hpe]
                  show specMatchPath ("" ++ "/" ++ "") (acc ++ "/" ++ "") = true
                  refine specMatchPath_append "" acc "" "" ?_ (by decide) (by decide) (by decide)
                  rw [hpe] at hmatch
                  exact hmatch
              · right
                rw [if_neg hpe] at heq
                exact ⟨heq, hpe⟩
            · exact hrestIH htp2
          · rw [if_neg hidx] at htp
            have hnidx' : ¬(jsToLower (stripExt f.name) = "index") := by
              rw [allLower_id _ hD]
              simpa using hidx
            rcases List.mem_cons.mp htp with heq | htp2
            · have hsm := seg_match (stripExt f.name) hCs hD h404 hsegO
              left
              refine ⟨acc ++ "/" ++ normalizeSegment (stripExt f.name), ?_, ?_⟩
              · apply List.mem_append_left
                rw [routeNodePaths, if_neg hnidx']
                exact List.mem_cons_self _ _
              · rw [heq]
                exact specMatchPath_append pfx acc _ _ hmatch hsm.2.1 hsm.2.2 hsm.1
            · exact hrestIH htp2

/-- `allRoutePaths` of the empty forest. -/
theorem allRoutePaths_nil (acc : String) : allRoutePaths acc [] = [] := by
  rw [allRoutePaths.eq_def]

/-- Claim C9 (amended): restricted to trees whose route-relevant names (raw
directory names, extension-stripped file names) are lowercase, nonempty,
slash-free, not `404` and bracketed only as whole-segment `[param]` groups,
with no directory named like a layout or loading file, every path string of
the generated type union corresponds to at least one route-node path of the
generated route tree, identifying the `\x7bstring\x7d` placeholder with a
`:param` route segment.  Without the lowercase restriction the claim fails:
see the counterexample. -/
theorem c9_amended (files : List FileNode) (st : GenState) (h : good9L files = true) :
    ∀ tp ∈ buildTypeUnionList (collectPaths files ""),
      ∃ rp ∈ allRoutePaths "" (fileDataToRoutes files "" false none st).1,
        specMatchPath tp rp = true := by
  intro tp htp
  have hgt : goodTreeL files = true := (good9_to_goodTree (sizeOf files)).2 files rfl h
  have hclean : ∀ q ∈ collectPaths files "", cleanPath q = true :=
    collectPaths_clean (sizeOf files) files rfl "" hgt (by decide)
  have hb := (buildTypeUnionList_clean (collectPaths files "") hclean).1
  rw [hb] at htp
  have htp2 : tp ∈ collectPaths files "" :=
    setDedup_subset _ _ ((jsSort_mem _ _ _).mp htp)
  have hmain := roundTripAux (sizeOf files) files rfl "" "" "" false none st h
    (Or.inr rfl) (by decide) tp htp2
  rcases hmain with ⟨rp, hrp, hm⟩ | ⟨_, hne⟩
  · exact ⟨rp, hrp, hm⟩
  · exact absurd rfl hne

/-- Counterexample for claim C9 as stated: `About.tsx` contributes the type
path `/About`, but the only route path is the lowercased `/about`, and the
two do not correspond (no placeholder is involved). -/
theorem c9_counterexample :
    buildTypeUnionList (collectPaths [upperAboutNode] "") = ["/About"]
      ∧ allRoutePaths ""
          (fileDataToRoutes [upperAboutNode] "" false none emptyGenState).1 = ["/about"]
      ∧ specMatchPath "/About" "/about" = false := by
  refine ⟨?_, ?_, ?_⟩
  · have h : collectPaths [upperAboutNode] "" = ["/About"] := by
      rw [upperAboutNode, collectPaths_cons]
      simp only [FileNode.isDirectory, FileNode.name]
      rw [if_neg (by decide), if_neg (by decide), if_neg (by decide), collectPaths_nil]
      rfl
    rw [h]
    rfl
  · have h : (fileDataToRoutes [upperAboutNode] "" false none emptyGenState).1
        = [RouteConfig.mk "about" (some "React.createElement(About)") none none] := by
      simp +decide [fileDataToRoutes_eq2, routesPreSort_cons, routesPreSort_nil,
        createFileRoute, upperAboutNode, FileNode.isDirectory, FileNode.name,
        FileNode.relative_path, emptyGenState, jsSort, insRev, cmpRoute, RouteConfig.path]
    rw [h, allRoutePaths_cons, allRoutePaths_nil, routeNodePaths]
    rfl
  · decide

/-- Witness for claim C9 as amended: on the lowercase tree
`[about.tsx, admin/index.tsx]` the claim applies, and in particular the type
path `/admin` is matched by a generated route path. -/
theorem c9_witness :
    ∃ rp ∈ allRoutePaths ""
        (fileDataToRoutes [aboutNode, adminDirNode] "" false none emptyGenState).1,
      specMatchPath "/admin" rp = true := by
  apply c9_amended [aboutNode, adminDirNode] emptyGenState (by decide)
  have h : collectPaths [aboutNode, adminDirNode] "" = ["/about", "/admin", "/admin"] := by
    simp +decide [collectPaths_cons, collectPaths_nil, aboutNode, adminDirNode, idxAdminNode,
      FileNode.isDirectory, FileNode.name, FileNode.children]
  rw [h]
  have hclean : ∀ q ∈ ["/about", "/admin", "/admin"], cleanPath q = true := by decide
  rw [(buildTypeUnionList_clean _ hclean).1, jsSort_mem]
  decide
